import Mathlib

/-!
Verification of the skeleton-go repository resolution, merge and
materialization engine.

Go strings are modelled as `List Char` (one `Char` per byte for the ASCII
inputs the claims range over).  The Go standard library collaborators
(`net/url`, `path/filepath`) are embedded as executable Lean functions
mirroring their source; parts of the repository that are not present in the
source tree (the process-wide repository cache, the materializer, the
skeleton merger, `internal/homedir`) are modelled from the specification and
marked as such in their doc comments.
-/

namespace Skel

abbrev Str := List Char

deriving instance DecidableEq for Except

/-! ## Basic character classes (Go `net/url`) -/

def isCtl (c : Char) : Bool := c.toNat < 32 || c.toNat == 127

def isAlpha (c : Char) : Bool :=
  ('a' ≤ c && c ≤ 'z') || ('A' ≤ c && c ≤ 'Z')

def isDigit (c : Char) : Bool := '0' ≤ c && c ≤ '9'

def isAlphaNum (c : Char) : Bool := isAlpha c || isDigit c

def isHex (c : Char) : Bool :=
  isDigit c || ('a' ≤ c && c ≤ 'f') || ('A' ≤ c && c ≤ 'F')

def hexVal (c : Char) : Nat :=
  if isDigit c then c.toNat - '0'.toNat
  else if 'a' ≤ c && c ≤ 'f' then c.toNat - 'a'.toNat + 10
  else if 'A' ≤ c && c ≤ 'F' then c.toNat - 'A'.toNat + 10
  else 0

def upperHexDigit (n : Nat) : Char :=
  if n < 10 then Char.ofNat ('0'.toNat + n) else Char.ofNat ('A'.toNat + (n - 10))

/-! ## List utilities mirroring Go `strings` helpers -/

/-- Go `strings.ContainsCTLByte`. -/
def containsCTL (s : Str) : Bool := s.any isCtl

/-- Go `split(s, sep, cutc=true)` / `strings.Cut`: text before the first
occurrence of `sep`, text after it, and whether `sep` was found. -/
def cutChar (sep : Char) : Str → Str × Str × Bool
  | [] => ([], [], false)
  | c :: rest =>
    if c = sep then ([], rest, true)
    else
      let r := cutChar sep rest
      (c :: r.1, r.2.1, r.2.2)

/-- Go `split(s, sep, cutc=false)`: the separator stays at the head of the
second component. -/
def cutCharKeep (sep : Char) : Str → Str × Str
  | [] => ([], [])
  | c :: rest =>
    if c = sep then ([], c :: rest)
    else
      let r := cutCharKeep sep rest
      (c :: r.1, r.2)

/-- `listStarts p s` is true when `s` begins with `p` (Go `strings.HasPrefix`). -/
def listStarts : Str → Str → Bool
  | [], _ => true
  | _ :: _, [] => false
  | a :: as, b :: bs => a == b && listStarts as bs

/-! ## Percent decoding and encoding (Go `net/url` `unescape` / `escape`) -/

/-- Characters allowed unescaped in a host per Go `shouldEscape(c, encodeHost)`:
alphanumerics, the RFC 3986 unreserved marks, and the sub-delims Go accepts
in hosts. -/
def hostAllowedChar (c : Char) : Bool :=
  isAlphaNum c ||
  ['-', '_', '.', '~'].contains c ||
  ['!', '$', '&', '\'', '(', ')', '*', '+', ',', ';', '=', ':', '[', ']', '<', '>', '"'].contains c

/-- Go `unescape(s, mode)` restricted to the modes the resolver exercises.
`hostMode` enables the host-specific validity checks; `plusSpace` turns `+`
into a space (query components).  Returns `none` on an invalid escape or an
invalid host character, as the Go function returns an error. -/
def unescapeGo (hostMode plusSpace : Bool) : Str → Option Str
  | [] => some []
  | '%' :: a :: b :: rest =>
    if isHex a && isHex b then
      -- In host mode Go rejects %-escapes below 0x80 other than %25.
      if hostMode && decide (hexVal a < 8) && !(a == '2' && b == '5') then none
      else
        match unescapeGo hostMode plusSpace rest with
        | some r => some (Char.ofNat (16 * hexVal a + hexVal b) :: r)
        | none => none
    else none
  | '%' :: _ => none
  | c :: rest =>
    if plusSpace && c == '+' then
      match unescapeGo hostMode plusSpace rest with
      | some r => some (' ' :: r)
      | none => none
    else if hostMode && decide (c.toNat < 128) && !hostAllowedChar c then none
    else
      match unescapeGo hostMode plusSpace rest with
      | some r => some (c :: r)
      | none => none

/-- Go `unescape(s, encodePath)` (also used for fragments): only escape
validity matters. -/
def unescapePath (s : Str) : Option Str := unescapeGo false false s

/-- Go `QueryUnescape`. -/
def unescapeQuery (s : Str) : Option Str := unescapeGo false true s

/-- Go `unescape(s, encodeHost)`. -/
def unescapeHost (s : Str) : Option Str := unescapeGo true false s

/-- Go `escape(s, encodeHost)`. -/
def escapeHost (s : Str) : Str :=
  s.flatMap fun c =>
    if c.toNat < 128 && !hostAllowedChar c then
      ['%', upperHexDigit (c.toNat / 16), upperHexDigit (c.toNat % 16)]
    else [c]

/-- Characters escaped by Go `shouldEscape(c, encodePathSegment)`
(`url.PathEscape`). -/
def pathSegmentEscaped (c : Char) : Bool :=
  if isAlphaNum c then false
  else if ['-', '_', '.', '~'].contains c then false
  else if ['$', '&', '+', ':', '=', '@'].contains c then false
  else true

/-- Go `url.PathEscape`. -/
def pathEscape (s : Str) : Str :=
  s.flatMap fun c =>
    if pathSegmentEscaped c then
      ['%', upperHexDigit (c.toNat / 16), upperHexDigit (c.toNat % 16)]
    else [c]

/-! ## Go `net/url` URL parsing (`url.Parse`) -/

/-- Result of Go `url.Parse`.  `path` is the decoded path; `rawPath` keeps the
path exactly as written (Go stores `RawPath` only when it differs from the
default encoding, but its `EscapedPath` then reproduces the written form, which
is what `rawPath` models).  `userinfo` and `fragment` are likewise kept as
written and echoed verbatim by `urlString`. -/
structure GoURL where
  scheme : Str
  opq : Str
  hasUser : Bool
  userinfo : Str
  host : Str
  path : Str
  rawPath : Str
  forceQuery : Bool
  rawQuery : Str
  fragment : Str
deriving DecidableEq, Repr

/-- Go `getScheme` loop body: `orig` is the whole input (returned when there is
no scheme), `acc` the scheme candidate scanned so far, `first` whether we are
at index 0. -/
def getSchemeAux (orig : Str) (acc : Str) (first : Bool) : Str → Option (Str × Str)
  | [] => some ([], orig)
  | c :: rest =>
    if isAlpha c then getSchemeAux orig (acc ++ [c]) false rest
    else if isDigit c || ['+', '-', '.'].contains c then
      if first then some ([], orig) else getSchemeAux orig (acc ++ [c]) false rest
    else if c = ':' then
      if first then none else some (acc, rest)
    else some ([], orig)

/-- Go `getScheme`: splits a leading `scheme:` off a raw URL; `none` models the
"missing protocol scheme" error. -/
def getScheme (s : Str) : Option (Str × Str) := getSchemeAux s [] true s

/-- Go `validOptionalPort`. -/
def validOptionalPort : Str → Bool
  | [] => true
  | ':' :: digits => digits.all isDigit
  | _ => false

/-- Index of the last occurrence of `c` in `s`, Go `strings.LastIndexByte`. -/
def lastIndexOf (c : Char) (s : Str) : Option Nat :=
  (s.reverse.findIdx? (· == c)).map (fun i => s.length - 1 - i)

/-- Go `parseHost`: validates an optional port (after the closing bracket for
IPv6 literals) and percent-decodes the host with host-mode checks.  The Go
zone-identifier special case inside brackets is folded into the ordinary
host decoding. -/
def parseHost (host : Str) : Option Str :=
  if listStarts ['['] host then
    match lastIndexOf ']' host with
    | none => none
    | some i => if validOptionalPort (host.drop (i + 1)) then unescapeHost host else none
  else
    match lastIndexOf ':' host with
    | none => unescapeHost host
    | some i => if validOptionalPort (host.drop i) then unescapeHost host else none

/-- Characters Go `validUserinfo` accepts. -/
def userinfoAllowedChar (c : Char) : Bool :=
  isAlphaNum c ||
  ['-', '.', '_', ':', '~', '!', '$', '&', '\'', '(', ')', '*', '+', ',', ';', '=', '%', '@'].contains c

/-- Go `parseAuthority`: returns `(hasUser, userinfo, host)`.  The userinfo is
validated (character set and escapes) but kept as written. -/
def parseAuthority (authority : Str) : Option (Bool × Str × Str) :=
  match lastIndexOf '@' authority with
  | none => (parseHost authority).map (fun h => (false, ([] : Str), h))
  | some i =>
    let userinfo := authority.take i
    match parseHost (authority.drop (i + 1)) with
    | none => none
    | some h =>
      if userinfo.all userinfoAllowedChar && (unescapePath userinfo).isSome then
        some (true, userinfo, h)
      else none

/-- Go `parse(rawURL, viaRequest=false)` after the query string has been split
off: opaque check, colon-in-first-segment check, authority, and path. -/
def parseAfterQuery (scheme : Str) (forceQuery : Bool) (rawQuery : Str) (rest : Str) : Option GoURL :=
  if listStarts ['/'] rest = false ∧ scheme ≠ [] then
    some { scheme := scheme, opq := rest, hasUser := false, userinfo := [], host := [],
           path := [], rawPath := [], forceQuery := forceQuery, rawQuery := rawQuery,
           fragment := [] }
  else if listStarts ['/'] rest = false ∧ ':' ∈ (cutChar '/' rest).1 then
    none
  else if (scheme ≠ [] ∨ listStarts ['/', '/', '/'] rest = false) ∧ listStarts ['/', '/'] rest = true then
    let ar := cutCharKeep '/' (rest.drop 2)
    match parseAuthority ar.1 with
    | none => none
    | some hu =>
      match unescapePath ar.2 with
      | none => none
      | some p =>
        some { scheme := scheme, opq := [], hasUser := hu.1, userinfo := hu.2.1, host := hu.2.2,
               path := p, rawPath := ar.2, forceQuery := forceQuery, rawQuery := rawQuery,
               fragment := [] }
  else
    match unescapePath rest with
    | none => none
    | some p =>
      some { scheme := scheme, opq := [], hasUser := false, userinfo := [], host := [],
             path := p, rawPath := rest, forceQuery := forceQuery, rawQuery := rawQuery,
             fragment := [] }

/-- Go `parse(rawURL, viaRequest=false)`: control-character check, `*` special
case, scheme, `ForceQuery`/query split, then `parseAfterQuery`. -/
def parseGoInner (rawURL : Str) : Option GoURL :=
  if containsCTL rawURL then none
  else if rawURL = ['*'] then
    some { scheme := [], opq := [], hasUser := false, userinfo := [], host := [],
           path := ['*'], rawPath := [], forceQuery := false, rawQuery := [], fragment := [] }
  else
    match getScheme rawURL with
    | none => none
    | some sr =>
      let scheme := sr.1.map Char.toLower
      let rest0 := sr.2
      if rest0.getLast? = some '?' ∧ ¬ '?' ∈ rest0.dropLast then
        parseAfterQuery scheme true [] rest0.dropLast
      else
        let qr := cutChar '?' rest0
        parseAfterQuery scheme false qr.2.1 qr.1

/-- Go `url.Parse`: splits the fragment first, then parses; a fragment with an
invalid escape is an error. -/
def urlParse (rawURL : Str) : Option GoURL :=
  let fr := cutChar '#' rawURL
  match parseGoInner fr.1 with
  | none => none
  | some u =>
    if fr.2.1 = [] then some u
    else
      match unescapePath fr.2.1 with
      | none => none
      | some _ => some { u with fragment := fr.2.1 }

/-- Characters escaped by Go `shouldEscape(c, encodePath)`. -/
def pathModeEscaped (c : Char) : Bool :=
  if isAlphaNum c then false
  else if ['-', '_', '.', '~'].contains c then false
  else if ['$', '&', '+', ',', '/', ':', ';', '=', '@'].contains c then false
  else true

/-- Go `escape(s, encodePath)`. -/
def escapePathMode (s : Str) : Str :=
  s.flatMap fun c =>
    if pathModeEscaped c then
      ['%', upperHexDigit (c.toNat / 16), upperHexDigit (c.toNat % 16)]
    else [c]

/-- Go `URL.EscapedPath`: the path as written when available, otherwise the
default encoding of the decoded path. -/
def escapedPath (u : GoURL) : Str :=
  if u.rawPath ≠ [] then u.rawPath else escapePathMode u.path

/-- Go `URL.String`. -/
def urlString (u : GoURL) : Str :=
  let schemePart := if u.scheme ≠ [] then u.scheme ++ [':'] else ([] : Str)
  let mainPart :=
    if u.opq ≠ [] then u.opq
    else
      let auth :=
        if u.scheme ≠ [] ∨ u.host ≠ [] ∨ u.hasUser then
          ['/', '/'] ++ (if u.hasUser then u.userinfo ++ ['@'] else ([] : Str)) ++ escapeHost u.host
        else ([] : Str)
      let p := escapedPath u
      let sep := if p ≠ [] ∧ listStarts ['/'] p = false ∧ u.host ≠ [] then ['/'] else ([] : Str)
      let dotSlash :=
        if schemePart = [] ∧ auth = [] ∧ ':' ∈ (cutChar '/' p).1 then ['.', '/'] else ([] : Str)
      auth ++ sep ++ dotSlash ++ p
  let queryPart := if u.forceQuery ∨ u.rawQuery ≠ [] then '?' :: u.rawQuery else ([] : Str)
  let fragPart := if u.fragment ≠ [] then '#' :: u.fragment else ([] : Str)
  schemePart ++ mainPart ++ queryPart ++ fragPart

/-! ## Go `url.ParseQuery` -/

/-- Split on every occurrence of `sep`, keeping empty segments
(Go `strings.Split` on one byte). -/
def splitChar (sep : Char) (s : Str) : List Str :=
  s.foldr
    (fun c acc =>
      match acc with
      | [] => [[c]]
      | seg :: rest => if c = sep then [] :: seg :: rest else (c :: seg) :: rest)
    [[]]

/-- One `key[=value]` query segment: Go rejects a semicolon separator and
invalid escapes, decodes key and value in query mode. -/
def querySegmentPair (seg : Str) : Option (Str × Str) :=
  if (';' : Char) ∈ seg then none
  else
    let kv := cutChar '=' seg
    match unescapeQuery kv.1, unescapeQuery kv.2.1 with
    | some k, some v => some (k, v)
    | _, _ => none

/-- Go `url.ParseQuery`, as the ordered list of decoded `(key, value)` pairs.
The Go loop cuts on `&`, skips empty segments, records the first error and
fails overall when one occurred; the model returns `none` exactly then. -/
def parseQuery (s : Str) : Option (List (Str × Str)) :=
  let segs := (splitChar '&' s).filter (fun seg => decide (seg ≠ []))
  if segs.all (fun seg => (querySegmentPair seg).isSome) then
    some (segs.filterMap querySegmentPair)
  else none

/-! ## Go `path/filepath` (Unix) -/

/-- One step of Go `path.Clean`, processing path components against a stack
(most recent component first). -/
def cleanStep (rooted : Bool) (stack : List Str) (comp : Str) : List Str :=
  if comp = [] ∨ comp = ['.'] then stack
  else if comp = ['.', '.'] then
    match stack with
    | top :: rest => if top = ['.', '.'] then comp :: stack else rest
    | [] => if rooted then [] else [comp]
  else comp :: stack

/-- Go `path.Clean` (equivalently `filepath.Clean` on Unix). -/
def goClean (p : Str) : Str :=
  if p = [] then ['.']
  else
    let rooted := listStarts ['/'] p
    let stack := ((splitChar '/' p).foldl (cleanStep rooted) []).reverse
    let out := (if rooted then ['/'] else ([] : Str)) ++ List.intercalate ['/'] stack
    if out = [] then ['.'] else out

/-- Go `filepath.Join` on Unix: drop leading empty elements, join the rest
with `/`, clean. -/
def goJoin (elems : List Str) : Str :=
  let elems2 := elems.dropWhile (fun e => decide (e = []))
  if elems2 = [] then [] else goClean (List.intercalate ['/'] elems2)

/-! ## `internal/homedir` -/

/-- Modelled from the spec: `internal/homedir` is not under `src/`.  The spec
(§4.1) says a leading home-directory shorthand is expanded; the model expands
a leading `~` against a fixed home directory and leaves other paths
unchanged. -/
def homeDir : Str := "/home/user".toList

/-- Modelled from the spec: `homedir.Expand`. -/
def homedirExpand (p : Str) : Str :=
  if p = ['~'] then homeDir
  else if listStarts ['~', '/'] p then homeDir ++ p.drop 1
  else p

/-! ## `internal/kickoff`: RepoRef (src/internal/kickoff/repository.go) -/

/-- `kickoff.RepoRef` (src/internal/kickoff/repository.go). -/
structure RepoRef where
  name : Str
  url : Str
  path : Str
  revision : Str
deriving DecidableEq, Repr

/-- `RepoRef.String` (src/internal/kickoff/repository.go). -/
def RepoRef.String (r : RepoRef) : Str :=
  if r.url = [] then r.path
  else if r.revision = [] then r.url
  else r.url ++ "?revision=".toList ++ r.revision

/-- `RepoRef.IsEmpty`. -/
def RepoRef.IsEmpty (r : RepoRef) : Bool := r.url == [] && r.path == []

/-- `RepoRef.IsRemote`. -/
def RepoRef.IsRemote (r : RepoRef) : Bool := r.url != []

/-- The two error classes of the locator parsers: `invalidLocator` models the
`"invalid repo URL %q"` wrap of a `url.Parse` failure, `invalidQuery` the
`"invalid URL query %q"` wrap of a `url.ParseQuery` failure. -/
inductive ParseError where
  | invalidLocator
  | invalidQuery
deriving DecidableEq, Repr

/-- Modelled from the spec: the constant `kickoff.LocalRepositoryCacheDir` is
declared in a file that is not under `src/`; the spec (§4.1, §6) has a single
platform cache root `LocalCacheRoot`, here a fixed directory under the
modelled home. -/
def LocalRepositoryCacheDir : Str := "/home/user/.cache/kickoff/repositories".toList

/-- `repository.LocalCache = configdir.LocalCache("kickoff", "repositories")`
(src/internal/repository/repo.go), the same platform cache directory under
the modelled home. -/
def LocalCache : Str := "/home/user/.cache/kickoff/repositories".toList

/-- `buildLocalCacheDir` (src/internal/kickoff/repository.go lines 110-114). -/
def Kickoff.buildLocalCacheDir (host path revision : Str) : Str :=
  goJoin [LocalRepositoryCacheDir, host, path ++ '@' :: pathEscape revision]

/-- `buildLocalCacheDir` (src/internal/repository/repo.go lines 101-105). -/
def Repository.buildLocalCacheDir (host path revision : Str) : Str :=
  goJoin [LocalCache, host, path ++ '@' :: pathEscape revision]

/-- `query["revision"]` followed by `rev[0]`: the first value recorded for the
`revision` key, in query order. -/
def lookupRevision (q : List (Str × Str)) : Option Str :=
  (q.find? (fun p => p.1 == "revision".toList)).map (fun p => p.2)

/-- `kickoff.ParseRepoRef` (src/internal/kickoff/repository.go lines 70-108).
`homedir.Expand` is modelled as total (see `homedirExpand`), so its error
branch does not occur. -/
def ParseRepoRef (rawurl : Str) : Except ParseError RepoRef :=
  match urlParse rawurl with
  | none => .error .invalidLocator
  | some u =>
    if u.host = [] then
      .ok { name := [], url := [], path := homedirExpand u.path, revision := [] }
    else
      match parseQuery u.rawQuery with
      | none => .error .invalidQuery
      | some query =>
        let revision0 :=
          match lookupRevision query with
          | some rev => rev
          | none => []
        let revision := if revision0 = [] then "master".toList else revision0
        .ok { name := [],
              url := urlString { u with rawQuery := [] },
              path := Kickoff.buildLocalCacheDir u.host u.path revision,
              revision := revision }

/-- `repository.ParseURL` (src/internal/repository/repo.go lines 61-99):
identical to `ParseRepoRef` except that the cache directory is rooted at
`LocalCache`. -/
def ParseURL (rawurl : Str) : Except ParseError RepoRef :=
  match urlParse rawurl with
  | none => .error .invalidLocator
  | some u =>
    if u.host = [] then
      .ok { name := [], url := [], path := homedirExpand u.path, revision := [] }
    else
      match parseQuery u.rawQuery with
      | none => .error .invalidQuery
      | some query =>
        let revision0 :=
          match lookupRevision query with
          | some rev => rev
          | none => []
        let revision := if revision0 = [] then "master".toList else revision0
        .ok { name := [],
              url := urlString { u with rawQuery := [] },
              path := Repository.buildLocalCacheDir u.host u.path revision,
              revision := revision }

/-! ## `internal/repository`: `NewNamed` and the process-wide cache
(src/internal/repository/repo.go lines 26-53)

`NewNamed` itself is in the source; the cache it uses (`repoCache`,
`cacheKey`) and the two repository constructors are not under `src/` and are
modelled from the spec (§4.2): an in-process map keyed by `(name, locator)`,
a Remote constructor that delegates to the external fetch collaborator and
roots a Local repository at the cache path, and a total Local constructor
over the resolved path.  Global mutable state is passed explicitly as a
`ResolveState`; the fetch collaborator is a function parameter, and every
invocation of it is recorded in `fetchCalls`. -/

/-- `cacheKey` (modelled from the spec: the cache is keyed by
`(name, locator)`). -/
structure CacheKey where
  name : Str
  url : Str
deriving DecidableEq, Repr

/-- The constructed repository value: its (named) ref and the local root it
reads skeletons from. -/
structure Repo where
  info : RepoRef
  localPath : Str
deriving DecidableEq, Repr

/-- Errors surfaced by `NewNamed`: a locator parse error or a fetch
collaborator error. -/
inductive NewError where
  | parseErr (e : ParseError)
  | fetchErr (msg : Str)
deriving DecidableEq, Repr

/-- Explicit resolution state: the process-wide repository cache and the log
of fetch-collaborator invocations. -/
structure ResolveState where
  cache : List (CacheKey × Repo)
  fetchCalls : List (Str × Str)
deriving DecidableEq, Repr

/-- `repoCache.get` (modelled from the spec): first binding for the key. -/
def cacheGet (c : List (CacheKey × Repo)) (k : CacheKey) : Option Repo :=
  (c.find? (fun p => p.1 == k)).map (fun p => p.2)

/-- `repoCache.set` (modelled from the spec): insert a binding for the key. -/
def cacheSet (c : List (CacheKey × Repo)) (k : CacheKey) (r : Repo) : List (CacheKey × Repo) :=
  (k, r) :: c

/-- `repository.NewNamed` (src/internal/repository/repo.go lines 26-53) over
the explicit state: check the cache, parse the locator, attach the name,
construct the Remote (fetch via the collaborator, recording the call) or
Local repository, store it in the cache, return it. -/
def NewNamed (fetch : Str → Str → Except Str Str) (name url : Str) (st : ResolveState) :
    Except NewError Repo × ResolveState :=
  let key : CacheKey := { name := name, url := url }
  match cacheGet st.cache key with
  | some repo => (.ok repo, st)
  | none =>
    match ParseURL url with
    | .error e => (.error (.parseErr e), st)
    | .ok info0 =>
      let info := { info0 with name := name }
      if info.IsRemote then
        let st1 := { st with fetchCalls := st.fetchCalls ++ [(info.url, info.revision)] }
        match fetch info.url info.revision with
        | .error msg => (.error (.fetchErr msg), st1)
        | .ok localPath =>
          let repo : Repo := { info := info, localPath := localPath }
          (.ok repo, { st1 with cache := cacheSet st1.cache key repo })
      else
        let repo : Repo := { info := info, localPath := info.path }
        (.ok repo, { st with cache := cacheSet st.cache key repo })

/-! ## Materializer (spec §4.5)

Modelled from the spec: `project.Create` (package `internal/project`) is not
under `src/`; only its caller `createProject` (src/unnamed/part_001) is.
Steps 2 and 4 of §4.5 for a file entry: the skip-pattern check comes first
and never consults the filesystem; otherwise a missing target is created,
and an existing target is overwritten when an `OverwriteFiles` pattern
matches, else when `Overwrite` is set, else skipped as existing. -/

/-- A relative path as segments. -/
abbrev RelPath := List Str

/-- Action kinds recorded in the materialization result. -/
inductive Action where
  | create
  | skip
  | skipExisting
  | overwrite
  | overwriteFile
deriving DecidableEq, Repr

/-- Materialization config (the fields of `project.Config` the conflict
policy reads). -/
structure MatConfig where
  overwrite : Bool
  overwriteFiles : List RelPath
  skipFiles : List RelPath
deriving Repr

/-- The configured filesystem: existing files with their contents. -/
abbrev FS := List (RelPath × Str)

def fsGet (fs : FS) (p : RelPath) : Option Str :=
  (fs.find? (fun e => e.1 == p)).map (fun e => e.2)

def fsSet (fs : FS) (p : RelPath) (content : Str) : FS :=
  (p, content) :: fs.filter (fun e => e.1 != p)

/-- A pattern matches the target or an ancestor directory of it: the pattern
path is a (possibly equal) leading run of the target's segments. -/
def pathCovers : RelPath → RelPath → Bool
  | [], _ => true
  | _ :: _, [] => false
  | a :: as, b :: bs => a == b && pathCovers as bs

def matchesAny (patterns : List RelPath) (target : RelPath) : Bool :=
  patterns.any (fun pat => pathCovers pat target)

/-- Modelled from the spec (§4.5 steps 2 and 4): materialize one file entry
against the configured filesystem, returning the recorded action and the
resulting filesystem. -/
def materializeFile (cfg : MatConfig) (fs : FS) (target : RelPath) (content : Str) :
    Action × FS :=
  if matchesAny cfg.skipFiles target then (.skip, fs)
  else
    match fsGet fs target with
    | none => (.create, fsSet fs target content)
    | some _ =>
      if matchesAny cfg.overwriteFiles target then (.overwriteFile, fsSet fs target content)
      else if cfg.overwrite then (.overwrite, fsSet fs target content)
      else (.skipExisting, fs)

/-! ## Skeleton merger (spec §4.4)

Modelled from the spec: `kickoff.MergeSkeletons` and the value merge it uses
are not under `src/`; only the call site (src/unnamed/part_001 lines
250-253) is.  Values are arbitrary nested documents; the merge is
left-to-right, maps merge key-by-key recursively, everything else is
replaced by the later value. -/

/-- A structured document value (scalar / sequence / map). -/
inductive Value where
  | int : Int → Value
  | str : Str → Value
  | seq : List Value → Value
  | map : List (Str × Value) → Value

/-- Whether a value is a map. -/
def Value.isMap : Value → Bool
  | .map _ => true
  | _ => false

/-- First binding for a key in a map's entries. -/
def lookupValue (entries : List (Str × Value)) (k : Str) : Option Value :=
  (entries.find? (fun e => e.1 == k)).map (fun e => e.2)

mutual

/-- Modelled from the spec (§4.4): merge two values, the second (later) one
winning; two maps merge entry-by-entry recursively, anything else is
replaced wholesale. -/
def mergeValue : Value → Value → Value
  | .map a, .map b => .map (mergeEntries a b)
  | _, b => b
termination_by _ b => (sizeOf b, 0)

/-- Merge the (later) entries `b` into `a`, left to right. -/
def mergeEntries (a : List (Str × Value)) : List (Str × Value) → List (Str × Value)
  | [] => a
  | (k, v) :: rest => mergeEntries (upsertEntry a k v) rest
termination_by b => (sizeOf b, 2)

/-- Install the binding `k := v` into `a`: merge onto an existing binding for
`k`, append a new binding otherwise. -/
def upsertEntry (a : List (Str × Value)) (k : Str) (v : Value) : List (Str × Value) :=
  if (lookupValue a k).isSome then
    a.map (fun e => if e.1 = k then (e.1, mergeValue e.2 v) else e)
  else a ++ [(k, v)]
termination_by (sizeOf v, 1)

end

/-- A skeleton descriptor, reduced to the declared values (the part the merge
claims are about). -/
structure Skeleton where
  values : List (Str × Value)

/-- Merge-time error for an empty input sequence. -/
inductive MergeError where
  | emptyMerge
deriving DecidableEq, Repr

/-- Modelled from the spec (§4.4): `kickoff.MergeSkeletons` folds the
descriptors left to right, failing on an empty sequence. -/
def MergeSkeletons : List Skeleton → Except MergeError Skeleton
  | [] => .error .emptyMerge
  | s :: rest => .ok (rest.foldl (fun acc s2 => ⟨mergeEntries acc.values s2.values⟩) s)

/-! # Theorems -/

/-- Writing a file makes it present with the written content. -/
theorem fsGet_fsSet (fs : FS) (p : RelPath) (content : Str) :
    fsGet (fsSet fs p content) p = some content := by
  simp [fsGet, fsSet, List.find?]

/-- C3: during materialization, for a file entry whose target already exists
on the configured filesystem: with no skip match, no overwrite-files match
and `Overwrite` unset the action is `SkipExisting` and the file is unchanged;
with an `OverwriteFiles` pattern matching the target or an ancestor the
action is `OverwriteFile` and the file is rewritten; otherwise with
`Overwrite` set the action is `Overwrite` and the file is rewritten; and with
a `SkipFiles` pattern matching the target or an ancestor the action is `Skip`
regardless of the other flags, the file is unchanged, and the filesystem is
never consulted for existence (the result is the same for every filesystem). -/
theorem materialize_conflict_policy (cfg : MatConfig) (fs : FS) (target : RelPath)
    (content : Str) (hex : (fsGet fs target).isSome) :
    (matchesAny cfg.skipFiles target = false → matchesAny cfg.overwriteFiles target = false →
      cfg.overwrite = false →
      materializeFile cfg fs target content = (.skipExisting, fs)) ∧
    (matchesAny cfg.skipFiles target = false → matchesAny cfg.overwriteFiles target = true →
      materializeFile cfg fs target content = (.overwriteFile, fsSet fs target content) ∧
      fsGet (materializeFile cfg fs target content).2 target = some content) ∧
    (matchesAny cfg.skipFiles target = false → matchesAny cfg.overwriteFiles target = false →
      cfg.overwrite = true →
      materializeFile cfg fs target content = (.overwrite, fsSet fs target content) ∧
      fsGet (materializeFile cfg fs target content).2 target = some content) ∧
    (matchesAny cfg.skipFiles target = true →
      ∀ fs2 : FS, materializeFile cfg fs2 target content = (.skip, fs2)) := by
  obtain ⟨old, hold⟩ : ∃ v, fsGet fs target = some v := by
    cases h : fsGet fs target with
    | none => rw [h] at hex; exact absurd hex (by simp)
    | some v => exact ⟨v, rfl⟩
  refine ⟨?_, ?_, ?_, ?_⟩
  · intro h1 h2 h3
    simp [materializeFile, h1, h2, h3, hold]
  · intro h1 h2
    simp [materializeFile, h1, h2, hold, fsGet_fsSet]
  · intro h1 h2 h3
    simp [materializeFile, h1, h2, h3, hold, fsGet_fsSet]
  · intro h1 fs2
    simp [materializeFile, h1]

/-- Witness for C3 at a concrete input: the target `a/b` exists, the skip
pattern `a` covers its ancestor, and the entry is skipped with the
filesystem unchanged. -/
theorem materialize_conflict_policy_witness :
    (fsGet [([['a'], ['b']], ['o'])] [['a'], ['b']]).isSome = true ∧
    materializeFile ⟨true, [[['a'], ['b']]], [[['a']]]⟩ [([['a'], ['b']], ['o'])]
      [['a'], ['b']] ['n'] = (.skip, [([['a'], ['b']], ['o'])]) :=
  ⟨by decide,
   (materialize_conflict_policy ⟨true, [[['a'], ['b']]], [[['a']]]⟩ [([['a'], ['b']], ['o'])]
      [['a'], ['b']] ['n'] (by decide)).2.2.2 (by decide) [([['a'], ['b']], ['o'])]⟩

/-- Merging a non-map later value replaces whatever was there. -/
theorem mergeValue_nonmap (u v : Value) (hv : v.isMap = false) : mergeValue u v = v := by
  cases u <;> cases v <;> simp_all [mergeValue, Value.isMap]

/-- Looking a key up in a cons. -/
theorem lookupValue_cons (k1 : Str) (v1 : Value) (rest : List (Str × Value)) (k : Str) :
    lookupValue ((k1, v1) :: rest) k = if k1 = k then some v1 else lookupValue rest k := by
  by_cases h : k1 = k <;> simp [lookupValue, List.find?_cons, h]

/-- A key absent from the keys has no binding. -/
theorem lookupValue_eq_none (b : List (Str × Value)) (k : Str) (h : k ∉ b.map Prod.fst) :
    lookupValue b k = none := by
  induction b with
  | nil => simp [lookupValue]
  | cons e rest ih =>
    obtain ⟨k1, v1⟩ := e
    simp only [List.map_cons, List.mem_cons] at h
    push_neg at h
    rw [lookupValue_cons, if_neg (Ne.symm h.1)]
    exact ih h.2

/-- The in-place merge map, shorthand used by `upsertEntry`. -/
theorem lookup_mapMerge_ne (a : List (Str × Value)) (k k2 : Str) (v : Value) (h : k2 ≠ k) :
    lookupValue (a.map fun e => if e.1 = k then (e.1, mergeValue e.2 v) else e) k2 =
      lookupValue a k2 := by
  induction a with
  | nil => simp
  | cons e rest ih =>
    obtain ⟨k1, v1⟩ := e
    by_cases hk : k1 = k
    · subst hk
      simp only [List.map_cons, if_pos rfl]
      rw [lookupValue_cons, lookupValue_cons, if_neg (fun hh => h hh.symm),
        if_neg (fun hh => h hh.symm)]
      exact ih
    · simp only [List.map_cons, if_neg hk]
      rw [lookupValue_cons, lookupValue_cons]
      by_cases h2 : k1 = k2
      · simp [h2]
      · simp only [if_neg h2]
        exact ih

theorem lookup_mapMerge_self (a : List (Str × Value)) (k : Str) (v : Value)
    (hv : v.isMap = false) (hsome : (lookupValue a k).isSome) :
    lookupValue (a.map fun e => if e.1 = k then (e.1, mergeValue e.2 v) else e) k =
      some v := by
  induction a with
  | nil => simp [lookupValue] at hsome
  | cons e rest ih =>
    obtain ⟨k1, v1⟩ := e
    by_cases hk : k1 = k
    · subst hk
      simp only [List.map_cons, if_true]
      rw [lookupValue_cons, if_pos rfl, mergeValue_nonmap _ _ hv]
    · simp only [List.map_cons, if_neg hk]
      rw [lookupValue_cons, if_neg hk]
      rw [lookupValue_cons, if_neg hk] at hsome
      exact ih hsome

theorem lookup_append_single (a : List (Str × Value)) (k k2 : Str) (v : Value) :
    lookupValue (a ++ [(k, v)]) k2 =
      if (lookupValue a k2).isSome then lookupValue a k2
      else if k = k2 then some v else none := by
  induction a with
  | nil => by_cases h : k = k2 <;> simp [lookupValue_cons, lookupValue, h]
  | cons e rest ih =>
    obtain ⟨k1, v1⟩ := e
    rw [List.cons_append, lookupValue_cons, lookupValue_cons]
    by_cases h2 : k1 = k2
    · simp [h2]
    · simp only [if_neg h2]
      exact ih

/-- `upsertEntry` does not disturb other keys. -/
theorem lookupValue_upsert_ne (a : List (Str × Value)) (k k2 : Str) (v : Value)
    (h : k2 ≠ k) : lookupValue (upsertEntry a k v) k2 = lookupValue a k2 := by
  rw [upsertEntry]
  split
  · exact lookup_mapMerge_ne a k k2 v h
  · rw [lookup_append_single]
    have hne : k ≠ k2 := fun hh => h hh.symm
    cases hl : lookupValue a k2 with
    | some w => simp
    | none => simp [hne]

/-- `upsertEntry` installs a non-map value at its key. -/
theorem lookupValue_upsert_self (a : List (Str × Value)) (k : Str) (v : Value)
    (hv : v.isMap = false) : lookupValue (upsertEntry a k v) k = some v := by
  rw [upsertEntry]
  split
  case isTrue hsome => exact lookup_mapMerge_self a k v hv hsome
  case isFalse hnone =>
    rw [lookup_append_single]
    cases hl : lookupValue a k with
    | none => simp
    | some w => rw [hl] at hnone; simp at hnone

/-- Keys not bound by the later entries keep their earlier binding. -/
theorem lookup_mergeEntries_notin (b : List (Str × Value)) (k : Str)
    (h : k ∉ b.map Prod.fst) :
    ∀ a, lookupValue (mergeEntries a b) k = lookupValue a k := by
  induction b with
  | nil => intro a; rw [mergeEntries]
  | cons e rest ih =>
    obtain ⟨k1, v1⟩ := e
    simp only [List.map_cons, List.mem_cons] at h
    push_neg at h
    intro a
    rw [mergeEntries, ih h.2 (upsertEntry a k1 v1), lookupValue_upsert_ne a k1 k v1 h.1]

/-- Last-wins for non-map values: a binding in the later entries ends up in
the merge. -/
theorem lookup_mergeEntries_last (b : List (Str × Value)) (k : Str) (v : Value)
    (hb : lookupValue b k = some v) (hnd : (b.map Prod.fst).Nodup)
    (hv : v.isMap = false) :
    ∀ a, lookupValue (mergeEntries a b) k = some v := by
  induction b with
  | nil => simp [lookupValue] at hb
  | cons e rest ih =>
    obtain ⟨k1, v1⟩ := e
    simp only [List.map_cons, List.nodup_cons] at hnd
    rw [lookupValue_cons] at hb
    intro a
    by_cases hk : k1 = k
    · subst hk
      rw [if_pos rfl] at hb
      have hv1 : v1 = v := by injection hb
      rw [mergeEntries, lookup_mergeEntries_notin rest k1 hnd.1 (upsertEntry a k1 v1),
        lookupValue_upsert_self a k1 v1 (by rw [hv1]; exact hv)]
      exact congrArg some hv1
    · rw [if_neg hk] at hb
      rw [mergeEntries]
      exact ih hb hnd.2 (upsertEntry a k1 v1)

/-- C4: skeleton merging is order-sensitive with last-wins semantics on
values: for A with values `{key: 1}` and B with `{key: 2}`,
`Merge([A,B]).Values["key"] = 2` and `Merge([B,A]).Values["key"] = 1`; in
general a (non-map) value bound by a later descriptor takes effect over any
earlier binding of the same key. -/
theorem merge_last_wins :
    ((MergeSkeletons [⟨[(['k', 'e', 'y'], .int 1)]⟩, ⟨[(['k', 'e', 'y'], .int 2)]⟩]).map
        (fun s => lookupValue s.values ['k', 'e', 'y']) = .ok (some (.int 2)) ∧
     (MergeSkeletons [⟨[(['k', 'e', 'y'], .int 2)]⟩, ⟨[(['k', 'e', 'y'], .int 1)]⟩]).map
        (fun s => lookupValue s.values ['k', 'e', 'y']) = .ok (some (.int 1))) ∧
    ∀ (a b : List (Str × Value)) (k : Str) (v : Value),
      lookupValue b k = some v → (b.map Prod.fst).Nodup → v.isMap = false →
      lookupValue (mergeEntries a b) k = some v := by
  refine ⟨⟨?_, ?_⟩, ?_⟩
  · simp [MergeSkeletons, mergeEntries, upsertEntry, mergeValue, lookupValue, Except.map,
      List.find?]
  · simp [MergeSkeletons, mergeEntries, upsertEntry, mergeValue, lookupValue, Except.map,
      List.find?]
  · intro a b k v hb hnd hv
    exact lookup_mergeEntries_last b k v hb hnd hv a

/-- Witness for C4's general clause at a concrete input: a later binding
`k := 7` wins over an earlier `k := 5`. -/
theorem merge_last_wins_witness :
    lookupValue [(['k'], Value.int 7)] ['k'] = some (.int 7) ∧
    ([((['k'] : Str), Value.int 7)].map Prod.fst).Nodup ∧
    (Value.int 7).isMap = false ∧
    lookupValue (mergeEntries [(['k'], Value.int 5)] [(['k'], Value.int 7)]) ['k'] =
      some (.int 7) :=
  ⟨by simp [lookupValue], by simp, rfl,
   merge_last_wins.2 [(['k'], Value.int 5)] [(['k'], Value.int 7)] ['k'] (.int 7)
     (by simp [lookupValue]) (by simp) rfl⟩


/-- A fresh cache binding is found first. -/
theorem cacheGet_cons_self (c : List (CacheKey × Repo)) (k : CacheKey) (r : Repo) :
    cacheGet ((k, r) :: c) k = some r := by
  simp [cacheGet, List.find?]

/-- C1: resolving the same `(name, locator)` pair twice returns the same
Repository instance: after a successful `NewNamed` call, repeating the call
with the same pair on the resulting state is a pure cache hit — it returns
the very same `Repo` value and leaves the state (cache and fetch-call log)
unchanged, so at most one resolution and at most one collaborator fetch
happen per distinct pair. -/
theorem newNamed_at_most_once (fetch : Str → Str → Except Str Str) (name url : Str)
    (st st1 : ResolveState) (r : Repo)
    (h : NewNamed fetch name url st = (.ok r, st1)) :
    NewNamed fetch name url st1 = (.ok r, st1) := by
  simp only [NewNamed] at h ⊢
  cases hc : cacheGet st.cache { name := name, url := url } with
  | some repo =>
    simp only [hc] at h
    rw [Prod.mk.injEq] at h
    obtain ⟨h1, rfl⟩ := h
    obtain rfl : repo = r := by injection h1
    simp [hc]
  | none =>
    simp only [hc] at h
    cases hp : ParseURL url with
    | error e => simp only [hp] at h; exact absurd (congrArg Prod.fst h) (by simp)
    | ok info0 =>
      simp only [hp] at h
      by_cases hr : ({ info0 with name := name } : RepoRef).IsRemote = true
      · simp only [hr, if_true] at h
        cases hf : fetch ({ info0 with name := name } : RepoRef).url
            ({ info0 with name := name } : RepoRef).revision with
        | error msg => simp only [hf] at h; exact absurd (congrArg Prod.fst h) (by simp)
        | ok lp =>
          simp only [hf] at h
          rw [Prod.mk.injEq] at h
          obtain ⟨h1, rfl⟩ := h
          injection h1 with h2
          subst h2
          simp [cacheSet, cacheGet_cons_self]
      · simp only [hr, if_false, Bool.false_eq_true] at h
        rw [Prod.mk.injEq] at h
        obtain ⟨h1, rfl⟩ := h
        injection h1 with h2
        subst h2
        simp [cacheSet, cacheGet_cons_self]

/-- C9: a failed resolution leaves the cache unchanged — when `NewNamed`
returns an error (parse failure or fetch failure) no entry is inserted, and
the key is absent from the resulting cache, so a later call with the same
pair attempts a full resolution again. -/
theorem newNamed_error_cache_unchanged (fetch : Str → Str → Except Str Str)
    (name url : Str) (st st1 : ResolveState) (e : NewError)
    (h : NewNamed fetch name url st = (.error e, st1)) :
    st1.cache = st.cache ∧ cacheGet st1.cache { name := name, url := url } = none := by
  simp only [NewNamed] at h
  cases hc : cacheGet st.cache { name := name, url := url } with
  | some repo =>
    simp only [hc] at h
    exact absurd (congrArg Prod.fst h) (by simp)
  | none =>
    simp only [hc] at h
    cases hp : ParseURL url with
    | error e2 =>
      simp only [hp] at h
      obtain ⟨-, rfl⟩ := Prod.mk.injEq .. |>.mp h
      exact ⟨rfl, hc⟩
    | ok info0 =>
      simp only [hp] at h
      by_cases hr : ({ info0 with name := name } : RepoRef).IsRemote = true
      · simp only [hr, if_true] at h
        cases hf : fetch ({ info0 with name := name } : RepoRef).url
            ({ info0 with name := name } : RepoRef).revision with
        | error msg =>
          simp only [hf] at h
          obtain ⟨-, rfl⟩ := Prod.mk.injEq .. |>.mp h
          exact ⟨rfl, hc⟩
        | ok lp =>
          simp only [hf] at h
          exact absurd (congrArg Prod.fst h) (by simp)
      · simp only [hr, if_false, Bool.false_eq_true] at h
        exact absurd (congrArg Prod.fst h) (by simp)

/-- A concrete fetch collaborator for witnesses: always succeeds, returning
the url as the fetched path. -/
def fetchW : Str → Str → Except Str Str := fun u _ => .ok u

def wName : Str := "default".toList

def wUrl : Str := "https://github.com/foo/bar".toList

def wRepoInfo : RepoRef :=
  { name := wName, url := wUrl,
    path := "/home/user/.cache/kickoff/repositories/github.com/foo/bar@master".toList,
    revision := "master".toList }

def wRepo : Repo := { info := wRepoInfo, localPath := wUrl }

def wSt : ResolveState :=
  { cache := [({ name := wName, url := wUrl }, wRepo)],
    fetchCalls := [(wUrl, "master".toList)] }

/-- Witness for C1 at a concrete input: a successful resolution of
`("default", "https://github.com/foo/bar")` from the empty state, repeated on
the resulting state, is a cache hit returning the same instance and changing
nothing. -/
theorem newNamed_at_most_once_witness :
    NewNamed fetchW wName wUrl { cache := [], fetchCalls := [] } = (.ok wRepo, wSt) ∧
    NewNamed fetchW wName wUrl wSt = (.ok wRepo, wSt) :=
  ⟨by decide, newNamed_at_most_once fetchW wName wUrl { cache := [], fetchCalls := [] } wSt
    wRepo (by decide)⟩

/-- Witness for C9 at a concrete input: resolving the unparseable locator
`a%zz` fails and leaves the empty cache empty. -/
theorem newNamed_error_cache_unchanged_witness :
    NewNamed fetchW wName "a%zz".toList { cache := [], fetchCalls := [] } =
      (.error (.parseErr .invalidLocator), { cache := [], fetchCalls := [] }) ∧
    ({ cache := [], fetchCalls := [] } : ResolveState).cache = [] ∧
    cacheGet ({ cache := [], fetchCalls := [] } : ResolveState).cache
      { name := wName, url := "a%zz".toList } = none :=
  ⟨by decide,
   (newNamed_error_cache_unchanged fetchW wName "a%zz".toList
      { cache := [], fetchCalls := [] } { cache := [], fetchCalls := [] }
      (.parseErr .invalidLocator) (by decide)).1,
   (newNamed_error_cache_unchanged fetchW wName "a%zz".toList
      { cache := [], fetchCalls := [] } { cache := [], fetchCalls := [] }
      (.parseErr .invalidLocator) (by decide)).2⟩

/-- The effective revision of a parsed query: the first `revision` value,
defaulting to `master` when the parameter is absent or empty. -/
def effectiveRevision (q : List (Str × Str)) : Str :=
  match lookupRevision q with
  | some rev => if rev = [] then "master".toList else rev
  | none => "master".toList

/-- Characterization of `ParseRepoRef` on a locator whose URL has a host
(shared by the remote-parsing claims). -/
theorem ParseRepoRef_remote (l : Str) (u : GoURL) (q : List (Str × Str))
    (h : urlParse l = some u) (hh : ¬ u.host = []) (hq : parseQuery u.rawQuery = some q) :
    ParseRepoRef l = .ok
      { name := [],
        url := urlString { u with rawQuery := [] },
        path := Kickoff.buildLocalCacheDir u.host u.path (effectiveRevision q),
        revision := effectiveRevision q } := by
  simp only [ParseRepoRef, h, hq, if_neg hh]
  cases hr : lookupRevision q with
  | none => simp [effectiveRevision, hr]
  | some rev => by_cases hrev : rev = [] <;> simp [effectiveRevision, hr, hrev]

/-- C5: a locator parsing to a URL with an empty host yields a local
RepoRef: its `Path` is the URL's path with a leading home-directory
shorthand expanded, and its `URL` and `Revision` are empty. -/
theorem parse_local_expands_home (l : Str) (u : GoURL) (h : urlParse l = some u)
    (hh : u.host = []) :
    ParseRepoRef l =
      .ok { name := [], url := [], path := homedirExpand u.path, revision := [] } := by
  simp [ParseRepoRef, h, hh]

def wURLLocal : GoURL :=
  { scheme := [], opq := [], hasUser := false, userinfo := [], host := [],
    path := "~/skel".toList, rawPath := "~/skel".toList, forceQuery := false,
    rawQuery := [], fragment := [] }

/-- Witness for C5 at the concrete locator `~/skel`. -/
theorem parse_local_expands_home_witness :
    urlParse "~/skel".toList = some wURLLocal ∧ wURLLocal.host = [] ∧
    ParseRepoRef "~/skel".toList =
      .ok { name := [], url := [], path := homedirExpand wURLLocal.path, revision := [] } :=
  ⟨by decide, by decide,
   parse_local_expands_home "~/skel".toList wURLLocal (by decide) (by decide)⟩

/-- C2: a locator parsing to a URL with a non-empty host yields a remote
RepoRef whose `Revision` is the `revision` query parameter (default
`master` when absent or empty), whose `URL` is the parsed URL with the
query string stripped (its canonical serialization, per the spec), and
whose `Path` is `join(LocalCacheRoot, host, urlPath ++ "@" ++
pathEscape(revision))`. -/
theorem parse_remote_spec (l : Str) (u : GoURL) (q : List (Str × Str))
    (h : urlParse l = some u) (hh : u.host ≠ []) (hq : parseQuery u.rawQuery = some q) :
    ParseRepoRef l = .ok
      { name := [],
        url := urlString { u with rawQuery := [] },
        path := goJoin [LocalRepositoryCacheDir, u.host,
          u.path ++ '@' :: pathEscape (effectiveRevision q)],
        revision := effectiveRevision q } :=
  ParseRepoRef_remote l u q h hh hq

def wURLRemote : GoURL :=
  { scheme := "https".toList, opq := [], hasUser := false, userinfo := [],
    host := "github.com".toList, path := "/foo/bar".toList, rawPath := "/foo/bar".toList,
    forceQuery := false, rawQuery := "revision=v1.0".toList, fragment := [] }

/-- Witness for C2 at the concrete locator
`https://github.com/foo/bar?revision=v1.0`. -/
theorem parse_remote_spec_witness :
    urlParse "https://github.com/foo/bar?revision=v1.0".toList = some wURLRemote ∧
    wURLRemote.host ≠ [] ∧
    parseQuery wURLRemote.rawQuery = some [("revision".toList, "v1.0".toList)] ∧
    ParseRepoRef "https://github.com/foo/bar?revision=v1.0".toList = .ok
      { name := [],
        url := urlString { wURLRemote with rawQuery := [] },
        path := goJoin [LocalRepositoryCacheDir, wURLRemote.host,
          wURLRemote.path ++ '@' ::
            pathEscape (effectiveRevision [("revision".toList, "v1.0".toList)])],
        revision := effectiveRevision [("revision".toList, "v1.0".toList)] } :=
  ⟨by decide, by decide, by decide,
   parse_remote_spec "https://github.com/foo/bar?revision=v1.0".toList wURLRemote
     [("revision".toList, "v1.0".toList)] (by decide) (by decide) (by decide)⟩

/-- C6: the locator parser fails exactly on malformed input — with
`invalidLocator` precisely when the string does not parse as a URL, with
`invalidQuery` precisely when it parses with a host but its query string is
malformed, and it succeeds on every other input (the embedding is a pure
function, so parsing has no side effects). -/
theorem parse_error_classification (l : Str) :
    (ParseRepoRef l = .error .invalidLocator ↔ urlParse l = none) ∧
    (ParseRepoRef l = .error .invalidQuery ↔
      ∃ u, urlParse l = some u ∧ u.host ≠ [] ∧ parseQuery u.rawQuery = none) ∧
    ((∃ r, ParseRepoRef l = .ok r) ↔
      ∃ u, urlParse l = some u ∧ (u.host = [] ∨ ∃ q, parseQuery u.rawQuery = some q)) := by
  cases hu : urlParse l with
  | none => simp [ParseRepoRef, hu]
  | some u =>
    by_cases hh : u.host = []
    · simp [ParseRepoRef, hu, hh]
    · cases hq : parseQuery u.rawQuery with
      | none => simp [ParseRepoRef, hu, hh, hq]
      | some q => simp [ParseRepoRef, hu, hh, hq]

/-- C7: the cache path of a remote reference is a pure function of
`(host, urlPath, revision)`: any two locators that parse to URLs with the
same (non-empty) host and the same path, and that resolve to the same
revision, produce RepoRefs with identical `Path` (in particular, parsing
the same locator twice yields the identical path). -/
theorem cache_path_deterministic (l1 l2 : Str) (u1 u2 : GoURL) (r1 r2 : RepoRef)
    (h1 : urlParse l1 = some u1) (h2 : urlParse l2 = some u2)
    (hh : u1.host ≠ []) (hhost : u1.host = u2.host) (hpath : u1.path = u2.path)
    (p1 : ParseRepoRef l1 = .ok r1) (p2 : ParseRepoRef l2 = .ok r2)
    (hrev : r1.revision = r2.revision) :
    r1.path = r2.path := by
  have hh2 : ¬ u2.host = [] := by rw [← hhost]; exact hh
  cases hq1 : parseQuery u1.rawQuery with
  | none => simp [ParseRepoRef, h1, if_neg hh, hq1] at p1
  | some q1 =>
    cases hq2 : parseQuery u2.rawQuery with
    | none => simp [ParseRepoRef, h2, if_neg hh2, hq2] at p2
    | some q2 =>
      rw [ParseRepoRef_remote l1 u1 q1 h1 hh hq1] at p1
      rw [ParseRepoRef_remote l2 u2 q2 h2 hh2 hq2] at p2
      injection p1 with e1
      injection p2 with e2
      subst e1
      subst e2
      simp only [Kickoff.buildLocalCacheDir] at hrev ⊢
      rw [hhost, hpath, hrev]

def wURL7a : GoURL :=
  { scheme := "https".toList, opq := [], hasUser := false, userinfo := [],
    host := ['h'], path := "/p".toList, rawPath := "/p".toList,
    forceQuery := false, rawQuery := "revision=v&x=1".toList, fragment := [] }

def wURL7b : GoURL :=
  { scheme := "https".toList, opq := [], hasUser := false, userinfo := [],
    host := ['h'], path := "/p".toList, rawPath := "/p".toList,
    forceQuery := false, rawQuery := "revision=v".toList, fragment := [] }

def wRef7 : RepoRef :=
  { name := [], url := "https://h/p".toList,
    path := "/home/user/.cache/kickoff/repositories/h/p@v".toList,
    revision := ['v'] }

/-- Witness for C7 at two concrete distinct locators with the same host,
path and revision. -/
theorem cache_path_deterministic_witness :
    urlParse "https://h/p?revision=v&x=1".toList = some wURL7a ∧
    urlParse "https://h/p?revision=v".toList = some wURL7b ∧
    ParseRepoRef "https://h/p?revision=v&x=1".toList = .ok wRef7 ∧
    ParseRepoRef "https://h/p?revision=v".toList = .ok wRef7 ∧
    wRef7.path = wRef7.path :=
  ⟨by decide, by decide, by decide, by decide,
   cache_path_deterministic "https://h/p?revision=v&x=1".toList
     "https://h/p?revision=v".toList wURL7a wURL7b wRef7 wRef7
     (by decide) (by decide) (by decide) (by decide) (by decide)
     (by decide) (by decide) (by decide)⟩

/-- C8: the two locator parsers are equivalent — when the two cache-root
constants agree, `ParseRepoRef` (package kickoff) and `ParseURL` (package
repository) return identical results (both fail alike or both return refs
with equal URL, Revision and Path) on every input. -/
theorem parsers_equivalent (h : LocalRepositoryCacheDir = LocalCache) (l : Str) :
    ParseRepoRef l = ParseURL l := by
  simp only [ParseRepoRef, ParseURL, Kickoff.buildLocalCacheDir,
    Repository.buildLocalCacheDir, h]

/-- Witness for C8 at a concrete locator. -/
theorem parsers_equivalent_witness :
    LocalRepositoryCacheDir = LocalCache ∧
    ParseRepoRef "https://h/p?revision=v".toList = ParseURL "https://h/p?revision=v".toList :=
  ⟨rfl, parsers_equivalent rfl "https://h/p?revision=v".toList⟩

/-- C10 counterexample: the ref parsed from `a%25zz` is the local path
`a%zz`, whose `String` re-parse hits an invalid percent escape and fails —
so `ParseRepoRef (r.String)` does not succeed, refuting the round-trip
claim as stated. -/
theorem string_roundtrip_cex :
    ParseRepoRef "a%25zz".toList =
      .ok { name := [], url := [], path := "a%zz".toList, revision := [] } ∧
    RepoRef.String { name := [], url := [], path := "a%zz".toList, revision := [] } =
      "a%zz".toList ∧
    ParseRepoRef "a%zz".toList = .error .invalidLocator := by
  refine ⟨by decide, by decide, by decide⟩

/-! ### Character-class and string lemmas for the amended round-trip -/

/-- Characters of a local path that survive a re-parse untouched. -/
def plainChar (c : Char) : Bool :=
  !isCtl c && !(['%', '?', '#', ':'].contains c)

def lowerAlpha (c : Char) : Bool := 'a' ≤ c && c ≤ 'z'

def hostPlainChar (c : Char) : Bool := isAlphaNum c || ['-', '.'].contains c

def pathPlainChar (c : Char) : Bool := isAlphaNum c || ['-', '.', '_', '/'].contains c

def revPlainChar (c : Char) : Bool := isAlphaNum c || ['-', '.', '_'].contains c

theorem not_mem_of_all (s : Str) (f : Char → Bool) (hall : s.all f = true) (c : Char)
    (hc : f c = false) : c ∉ s := fun hmem => by
  have h2 := List.all_eq_true.mp hall c hmem
  rw [hc] at h2
  exact Bool.false_ne_true h2

theorem cutChar_not_mem (c : Char) (s : Str) (h : c ∉ s) : cutChar c s = (s, [], false) := by
  induction s with
  | nil => rfl
  | cons a rest ih =>
    simp only [List.mem_cons] at h
    push_neg at h
    simp only [cutChar, if_neg (Ne.symm h.1), ih h.2]

theorem cutChar_append (c : Char) (A B : Str) (h : c ∉ A) :
    cutChar c (A ++ c :: B) = (A, B, true) := by
  induction A with
  | nil => simp [cutChar]
  | cons a rest ih =>
    simp only [List.mem_cons] at h
    push_neg at h
    simp [cutChar, if_neg (Ne.symm h.1), ih h.2]

theorem cutCharKeep_not_mem (c : Char) (s : Str) (h : c ∉ s) : cutCharKeep c s = (s, []) := by
  induction s with
  | nil => rfl
  | cons a rest ih =>
    simp only [List.mem_cons] at h
    push_neg at h
    simp only [cutCharKeep, if_neg (Ne.symm h.1), ih h.2]

theorem cutCharKeep_append (c : Char) (A B : Str) (h : c ∉ A) :
    cutCharKeep c (A ++ c :: B) = (A, c :: B) := by
  induction A with
  | nil => simp [cutCharKeep]
  | cons a rest ih =>
    simp only [List.mem_cons] at h
    push_neg at h
    simp [cutCharKeep, if_neg (Ne.symm h.1), ih h.2]

theorem mem_of_mem_cutChar_fst (c x : Char) (s : Str) (h : x ∈ (cutChar c s).1) : x ∈ s := by
  induction s with
  | nil => simp [cutChar] at h
  | cons a rest ih =>
    by_cases hac : a = c
    · simp only [cutChar, if_pos hac] at h
      simp at h
    · simp only [cutChar, if_neg hac] at h
      rcases List.mem_cons.mp h with h1 | h1
      · exact h1 ▸ List.mem_cons_self a rest
      · exact List.mem_cons_of_mem a (ih h1)

theorem getSchemeAux_no_colon (orig s : Str) (h : (':' : Char) ∉ s) :
    ∀ acc first, getSchemeAux orig acc first s = some ([], orig) := by
  induction s with
  | nil => intro acc first; rfl
  | cons c rest ih =>
    intro acc first
    simp only [List.mem_cons] at h
    push_neg at h
    rw [getSchemeAux]
    by_cases ha : isAlpha c = true
    · rw [if_pos ha]; exact ih h.2 _ _
    · rw [if_neg ha]
      by_cases hd : (isDigit c || ['+', '-', '.'].contains c) = true
      · rw [if_pos hd]
        cases first
        · simp only [Bool.false_eq_true, if_false]
          exact ih h.2 _ _
        · simp
      · rw [if_neg hd, if_neg (Ne.symm h.1)]

theorem getScheme_no_colon (s : Str) (h : (':' : Char) ∉ s) : getScheme s = some ([], s) :=
  getSchemeAux_no_colon s s h [] true

theorem unescapeGo_id (hostMode plusSpace : Bool) (s : Str) (hpct : ('%' : Char) ∉ s)
    (hplus : plusSpace = true → ('+' : Char) ∉ s)
    (hhost : hostMode = true → ∀ c ∈ s, hostAllowedChar c = true) :
    unescapeGo hostMode plusSpace s = some s := by
  induction s with
  | nil => rfl
  | cons c rest ih =>
    have hpct2 : ('%' : Char) ∉ rest := fun hm => hpct (List.mem_cons_of_mem c hm)
    have hcp : c ≠ '%' := fun hh => hpct (hh ▸ List.mem_cons_self c rest)
    have ihr := ih hpct2
      (fun hps hm => (hplus hps) (List.mem_cons_of_mem c hm))
      (fun hhm x hx => (hhost hhm) x (List.mem_cons_of_mem c hx))
    have hplusc : (plusSpace && c == '+') = false := by
      cases hps : plusSpace
      · rfl
      · have hc : c ≠ '+' := fun hh => (hplus hps) (hh ▸ List.mem_cons_self c rest)
        simp [hc]
    have hhostc : (hostMode && decide (c.toNat < 128) && !hostAllowedChar c) = false := by
      cases hhm : hostMode
      · rfl
      · have hc := hhost hhm c (List.mem_cons_self c rest)
        simp [hc]
    rw [unescapeGo.eq_def]
    split
    · rename_i heq
      simp at heq
    · rename_i heq
      injection heq with h1 h2
      exact absurd h1 hcp
    · rename_i heq
      injection heq with h1 h2
      exact absurd h1 hcp
    · rename_i heq
      injection heq with h1 h2
      subst h1
      subst h2
      simp only [hplusc, hhostc, Bool.false_eq_true, if_false, ihr]

theorem unescapePath_id (s : Str) (h : ('%' : Char) ∉ s) : unescapePath s = some s :=
  unescapeGo_id false false s h (by simp) (by simp)

theorem unescapeQuery_id (s : Str) (hpct : ('%' : Char) ∉ s) (hplus : ('+' : Char) ∉ s) :
    unescapeQuery s = some s :=
  unescapeGo_id false true s hpct (fun _ => hplus) (by simp)

theorem unescapeHost_id (s : Str) (hpct : ('%' : Char) ∉ s)
    (hallow : ∀ c ∈ s, hostAllowedChar c = true) : unescapeHost s = some s :=
  unescapeGo_id true false s hpct (by simp) (fun _ => hallow)

theorem charLe_toNat {a b : Char} : (a ≤ b) ↔ a.toNat ≤ b.toNat := Iff.rfl

theorem isAlphaNum_toNat (c : Char) (h : isAlphaNum c = true) :
    (97 ≤ c.toNat ∧ c.toNat ≤ 122) ∨ (65 ≤ c.toNat ∧ c.toNat ≤ 90) ∨
    (48 ≤ c.toNat ∧ c.toNat ≤ 57) := by
  simp only [isAlphaNum, isAlpha, isDigit, Bool.or_eq_true, Bool.and_eq_true,
    decide_eq_true_eq, charLe_toNat] at h
  rw [show ('a' : Char).toNat = 97 from rfl, show ('z' : Char).toNat = 122 from rfl,
    show ('A' : Char).toNat = 65 from rfl, show ('Z' : Char).toNat = 90 from rfl,
    show ('0' : Char).toNat = 48 from rfl, show ('9' : Char).toNat = 57 from rfl] at h
  omega

theorem isCtl_false_of_isAlphaNum (c : Char) (h : isAlphaNum c = true) : isCtl c = false := by
  have h2 := isAlphaNum_toNat c h
  simp only [isCtl, Bool.or_eq_false_iff, decide_eq_false_iff_not, Nat.not_lt,
    beq_eq_false_iff_ne, ne_eq]
  omega

theorem isCtl_false_of_lowerAlpha (c : Char) (h : lowerAlpha c = true) : isCtl c = false := by
  simp only [lowerAlpha, Bool.and_eq_true, decide_eq_true_eq, charLe_toNat] at h
  rw [show ('a' : Char).toNat = 97 from rfl, show ('z' : Char).toNat = 122 from rfl] at h
  simp only [isCtl, Bool.or_eq_false_iff, decide_eq_false_iff_not, Nat.not_lt,
    beq_eq_false_iff_ne, ne_eq]
  omega

theorem isCtl_false_of_hostPlain (c : Char) (h : hostPlainChar c = true) : isCtl c = false := by
  rw [hostPlainChar, Bool.or_eq_true] at h
  rcases h with h | h
  · exact isCtl_false_of_isAlphaNum c h
  · have h2 : c ∈ ['-', '.'] := by simpa using h
    fin_cases h2 <;> decide

theorem isCtl_false_of_pathPlain (c : Char) (h : pathPlainChar c = true) : isCtl c = false := by
  rw [pathPlainChar, Bool.or_eq_true] at h
  rcases h with h | h
  · exact isCtl_false_of_isAlphaNum c h
  · have h2 : c ∈ ['-', '.', '_', '/'] := by simpa using h
    fin_cases h2 <;> decide

theorem isCtl_false_of_revPlain (c : Char) (h : revPlainChar c = true) : isCtl c = false := by
  rw [revPlainChar, Bool.or_eq_true] at h
  rcases h with h | h
  · exact isCtl_false_of_isAlphaNum c h
  · have h2 : c ∈ ['-', '.', '_'] := by simpa using h
    fin_cases h2 <;> decide

theorem isCtl_false_of_plain (c : Char) (h : plainChar c = true) : isCtl c = false := by
  rw [plainChar, Bool.and_eq_true] at h
  simpa using h.1

theorem containsCTL_eq_false (s : Str) (h : ∀ c ∈ s, isCtl c = false) :
    containsCTL s = false := by
  rw [containsCTL, List.any_eq_false]
  intro x hx
  simp [h x hx]

theorem mem_of_getLast?_eq (l : Str) (y : Char) (h : l.getLast? = some y) : y ∈ l := by
  obtain ⟨hne, hy⟩ := List.mem_getLast?_eq_getLast (show y ∈ l.getLast? from h)
  rw [hy]
  exact List.getLast_mem hne

theorem splitChar_cons (sep c : Char) (s : Str) :
    splitChar sep (c :: s) =
      match splitChar sep s with
      | [] => [[c]]
      | seg :: rest => if c = sep then [] :: seg :: rest else (c :: seg) :: rest := rfl

theorem splitChar_not_mem (sep : Char) (s : Str) (h : sep ∉ s) : splitChar sep s = [s] := by
  induction s with
  | nil => rfl
  | cons c rest ih =>
    simp only [List.mem_cons] at h
    push_neg at h
    rw [splitChar_cons, ih h.2]
    simp only [if_neg (Ne.symm h.1)]

theorem lastIndexOf_not_mem (c : Char) (s : Str) (h : c ∉ s) : lastIndexOf c s = none := by
  rw [lastIndexOf]
  have h2 : s.reverse.findIdx? (· == c) = none := by
    rw [List.findIdx?_eq_none_iff]
    intro x hx
    have : x ≠ c := fun hh => h (hh ▸ List.mem_reverse.mp hx)
    simp [this]
  rw [h2]
  rfl

theorem listStarts_two_false (c d : Char) (p : Str) (h : listStarts [c] p = false) :
    listStarts [c, d] p = false := by
  cases p with
  | nil => rfl
  | cons b bs =>
    simp only [listStarts, Bool.and_eq_false_iff] at h ⊢
    rcases h with h | h
    · exact Or.inl h
    · cases bs <;> simp at h

theorem parseAfterQuery_plain (p : Str) (hcolon : (':' : Char) ∉ p)
    (hpct : ('%' : Char) ∉ p) (h2 : listStarts ['/', '/'] p = false) :
    parseAfterQuery [] false [] p = some
      { scheme := [], opq := [], hasUser := false,
        userinfo := [], host := [], path := p, rawPath := p, forceQuery := false,
        rawQuery := [], fragment := [] } := by
  rw [parseAfterQuery]
  rw [if_neg (fun hc => hc.2 rfl)]
  rw [if_neg (fun hc => hcolon (mem_of_mem_cutChar_fst '/' ':' p hc.2))]
  rw [if_neg (fun hc => by rw [h2] at hc; exact Bool.false_ne_true hc.2)]
  rw [unescapePath_id p hpct]

theorem urlParse_plain (p : Str) (hall : p.all plainChar = true) (hstar : p ≠ ['*'])
    (h2 : listStarts ['/', '/'] p = false) :
    urlParse p = some
      { scheme := [], opq := [], hasUser := false, userinfo := [],
        host := [], path := p, rawPath := p, forceQuery := false, rawQuery := [],
        fragment := [] } := by
  have hq : ('?' : Char) ∉ p := not_mem_of_all p plainChar hall '?' (by decide)
  have hhash : ('#' : Char) ∉ p := not_mem_of_all p plainChar hall '#' (by decide)
  have hcolon : (':' : Char) ∉ p := not_mem_of_all p plainChar hall ':' (by decide)
  have hpct : ('%' : Char) ∉ p := not_mem_of_all p plainChar hall '%' (by decide)
  have hctl : containsCTL p = false :=
    containsCTL_eq_false p (fun c hc => isCtl_false_of_plain c (List.all_eq_true.mp hall c hc))
  have hforce : ¬(p.getLast? = some '?' ∧ ¬('?' : Char) ∈ p.dropLast) := by
    rintro ⟨hl, -⟩
    exact hq (mem_of_getLast?_eq p '?' hl)
  have hinner : parseGoInner p = some
      { scheme := [], opq := [], hasUser := false,
        userinfo := [], host := [], path := p, rawPath := p, forceQuery := false,
        rawQuery := [], fragment := [] } := by
    rw [parseGoInner, hctl]
    simp only [Bool.false_eq_true, if_false, if_neg hstar, getScheme_no_colon p hcolon]
    simp only [List.map_nil, if_neg hforce, cutChar_not_mem '?' p hq]
    exact parseAfterQuery_plain p hcolon hpct h2
  rw [urlParse]
  simp only [cutChar_not_mem '#' p hhash, hinner]
  simp

theorem ParseRepoRef_plain (p : Str) (hall : p.all plainChar = true)
    (h1 : listStarts ['~'] p = false) (h2 : listStarts ['/', '/'] p = false) :
    ParseRepoRef p = .ok { name := [], url := [], path := p, revision := [] } := by
  by_cases hstar : p = ['*']
  · subst hstar; decide
  · have hu := urlParse_plain p hall hstar h2
    have htwo := listStarts_two_false '~' '/' p h1
    have hexp : homedirExpand p = p := by
      rw [homedirExpand]
      rw [if_neg (fun hp => by rw [hp] at h1; exact absurd h1 (by decide))]
      rw [if_neg (fun hc => Bool.false_ne_true (htwo ▸ hc))]
    simp [ParseRepoRef, hu, hexp]

theorem parseAfterQuery_host_opq (scheme : Str) (fq : Bool) (rq rest : Str) (u : GoURL)
    (h : parseAfterQuery scheme fq rq rest = some u) (hh : ¬ u.host = []) : u.opq = [] := by
  simp only [parseAfterQuery] at h
  split at h
  · injection h with h1
    subst h1
    exact absurd rfl hh
  · split at h
    · exact absurd h (by simp)
    · split at h
      · split at h
        · exact absurd h (by simp)
        · split at h
          · exact absurd h (by simp)
          · injection h with h1
            subst h1
            rfl
      · split at h
        · exact absurd h (by simp)
        · injection h with h1
          subst h1
          exact absurd rfl hh

theorem urlParse_host_opq (s : Str) (u : GoURL) (h : urlParse s = some u)
    (hh : ¬ u.host = []) : u.opq = [] := by
  simp only [urlParse] at h
  cases hp : parseGoInner (cutChar '#' s).1 with
  | none => rw [hp] at h; exact absurd h (by simp)
  | some u0 =>
    simp only [hp] at h
    have hfields : u0.host = u.host ∧ u0.opq = u.opq := by
      by_cases hf : (cutChar '#' s).2.1 = []
      · rw [if_pos hf] at h
        injection h with h1
        subst h1
        exact ⟨rfl, rfl⟩
      · rw [if_neg hf] at h
        cases hup : unescapePath (cutChar '#' s).2.1 with
        | none => rw [hup] at h; exact absurd h (by simp)
        | some frag =>
          rw [hup] at h
          injection h with h1
          subst h1
          exact ⟨rfl, rfl⟩
    have hh0 : ¬ u0.host = [] := fun hc => hh (hfields.1 ▸ hc)
    rw [← hfields.2]
    simp only [parseGoInner] at hp
    split at hp
    · exact absurd hp (by simp)
    · split at hp
      · injection hp with h1
        subst h1
        exact absurd rfl hh0
      · cases hgs : getScheme (cutChar '#' s).1 with
        | none => rw [hgs] at hp; exact absurd hp (by simp)
        | some sr =>
          simp only [hgs] at hp
          split at hp
          · exact parseAfterQuery_host_opq _ _ _ _ _ hp hh0
          · exact parseAfterQuery_host_opq _ _ _ _ _ hp hh0

theorem urlString_ne_nil (u : GoURL) (hh : ¬ u.host = []) (ho : u.opq = []) :
    ¬ urlString u = [] := by
  intro hcontra
  rw [urlString] at hcontra
  simp only [ho, if_neg (fun hc : ([] : Str) ≠ [] => hc rfl)] at hcontra
  rw [if_pos (Or.inr (Or.inl hh))] at hcontra
  simp only [List.append_eq_nil, List.append_eq, List.cons_append] at hcontra
  exact absurd hcontra (by simp)

theorem ParseRepoRef_ok_local_shape (l : Str) (r : RepoRef) (h : ParseRepoRef l = .ok r)
    (hu : r.url = []) : r.name = [] ∧ r.revision = [] := by
  cases hul : urlParse l with
  | none => simp [ParseRepoRef, hul] at h
  | some u =>
    by_cases hh : u.host = []
    · simp only [ParseRepoRef, hul, if_pos hh] at h
      injection h with h1
      subst h1
      exact ⟨rfl, rfl⟩
    · cases hq : parseQuery u.rawQuery with
      | none => simp [ParseRepoRef, hul, hh, hq] at h
      | some q =>
        rw [ParseRepoRef_remote l u q hul hh hq] at h
        injection h with h1
        subst h1
        have hop : u.opq = [] := urlParse_host_opq l u hul hh
        exact absurd hu (urlString_ne_nil { u with rawQuery := [] } hh hop)

/-- The local half of the amended round-trip. -/
theorem roundtrip_local (l : Str) (r : RepoRef) (h : ParseRepoRef l = .ok r)
    (hu : r.url = []) (hall : r.path.all plainChar = true)
    (h1 : listStarts ['~'] r.path = false) (h2 : listStarts ['/', '/'] r.path = false) :
    ParseRepoRef (RepoRef.String r) = .ok r := by
  obtain ⟨hn, hrev⟩ := ParseRepoRef_ok_local_shape l r h hu
  have hr : r = { name := [], url := [], path := r.path, revision := [] } := by
    cases r with
    | mk n u2 p rev =>
      simp only [RepoRef.mk.injEq]
      exact ⟨hn, hu, trivial, hrev⟩
  have hs : RepoRef.String r = r.path := by rw [RepoRef.String, if_pos hu]
  rw [hs, ParseRepoRef_plain r.path hall h1 h2, ← hr]

theorem toLower_id_of_lower (c : Char) (h : lowerAlpha c = true) : c.toLower = c := by
  rw [lowerAlpha, Bool.and_eq_true, decide_eq_true_eq, decide_eq_true_eq] at h
  unfold Char.toLower
  have h1 : 97 ≤ c.toNat := h.1
  rw [if_neg (by omega)]

theorem map_toLower_id (s : Str) (h : s.all lowerAlpha = true) : s.map Char.toLower = s := by
  induction s with
  | nil => rfl
  | cons c rest ih =>
    rw [List.all_cons, Bool.and_eq_true] at h
    rw [List.map_cons, toLower_id_of_lower c h.1, ih h.2]

theorem lowerAlpha_isAlpha (s : Str) (h : s.all lowerAlpha = true) : s.all isAlpha = true := by
  rw [List.all_eq_true] at h ⊢
  intro c hc
  have h2 := h c hc
  rw [lowerAlpha, Bool.and_eq_true] at h2
  rw [isAlpha, Bool.or_eq_true, Bool.and_eq_true]
  exact Or.inl h2

theorem getSchemeAux_alpha (orig : Str) (sch : Str) (hsch : sch.all isAlpha = true) :
    ∀ acc first, (sch ≠ [] ∨ first = false) → ∀ tail,
      getSchemeAux orig acc first (sch ++ ':' :: tail) = some (acc ++ sch, tail) := by
  induction sch with
  | nil =>
    intro acc first hor tail
    have hf : first = false := by
      rcases hor with h | h
      · exact absurd rfl h
      · exact h
    subst hf
    simp only [List.nil_append, List.append_nil]
    rfl
  | cons c rest ih =>
    intro acc first hor tail
    rw [List.all_cons, Bool.and_eq_true] at hsch
    rw [List.cons_append, getSchemeAux, if_pos hsch.1,
      ih hsch.2 (acc ++ [c]) false (Or.inr rfl) tail]
    simp [List.append_assoc]

theorem getScheme_alpha (sch tail : Str) (h : sch.all isAlpha = true) (hne : sch ≠ []) :
    getScheme (sch ++ ':' :: tail) = some (sch, tail) := by
  rw [getScheme, getSchemeAux_alpha (sch ++ ':' :: tail) sch h [] true (Or.inl hne) tail,
    List.nil_append]

theorem escapeHost_id (s : Str) (h : ∀ c ∈ s, hostAllowedChar c = true) : escapeHost s = s := by
  induction s with
  | nil => rfl
  | cons c rest ih =>
    have hc := h c (List.mem_cons_self c rest)
    have ih2 := ih (fun x hx => h x (List.mem_cons_of_mem c hx))
    simp only [escapeHost, List.flatMap_cons] at ih2 ⊢
    rw [hc]
    simp only [Bool.not_true, Bool.and_false, Bool.false_eq_true, if_false, ih2,
      List.singleton_append]

theorem hostPlain_allowed (host : Str) (hall : host.all hostPlainChar = true) :
    ∀ c ∈ host, hostAllowedChar c = true := by
  intro c hc
  have h2 := List.all_eq_true.mp hall c hc
  rw [hostPlainChar, Bool.or_eq_true] at h2
  rcases h2 with h2 | h2
  · rw [hostAllowedChar]
    simp [h2]
  · have h3 : c ∈ ['-', '.'] := by simpa using h2
    fin_cases h3 <;> decide

theorem parseHost_plain (host : Str) (hne : host ≠ []) (hall : host.all hostPlainChar = true) :
    parseHost host = some host := by
  have hpct : ('%' : Char) ∉ host := not_mem_of_all host hostPlainChar hall '%' (by decide)
  have hcolon : (':' : Char) ∉ host := not_mem_of_all host hostPlainChar hall ':' (by decide)
  have hbr : listStarts ['['] host = false := by
    cases host with
    | nil => exact absurd rfl hne
    | cons hc tl =>
      have h2 := List.all_eq_true.mp hall hc (List.mem_cons_self hc tl)
      have h3 : hc ≠ '[' := fun hh => by rw [hh] at h2; exact absurd h2 (by decide)
      simp [listStarts, Ne.symm h3]
  rw [parseHost]
  simp only [hbr, Bool.false_eq_true, if_false, lastIndexOf_not_mem ':' host hcolon]
  exact unescapeHost_id host hpct (hostPlain_allowed host hall)

theorem parseAuthority_plain (host : Str) (hne : host ≠ [])
    (hall : host.all hostPlainChar = true) : parseAuthority host = some (false, [], host) := by
  have hat : ('@' : Char) ∉ host := not_mem_of_all host hostPlainChar hall '@' (by decide)
  rw [parseAuthority, lastIndexOf_not_mem '@' host hat, parseHost_plain host hne hall]
  rfl

theorem parseAfterQuery_remote (scheme host pathp rq : Str)
    (hs1 : scheme ≠ []) (hh1 : host ≠ []) (hh2 : host.all hostPlainChar = true)
    (hp : pathp = [] ∨ ∃ pt, pathp = '/' :: pt) (hppct : ('%' : Char) ∉ pathp) :
    parseAfterQuery scheme false rq ('/' :: '/' :: (host ++ pathp)) =
      some { scheme := scheme, opq := [], hasUser := false, userinfo := [], host := host,
             path := pathp, rawPath := pathp, forceQuery := false, rawQuery := rq,
             fragment := [] } := by
  have hslash : ('/' : Char) ∉ host := not_mem_of_all host hostPlainChar hh2 '/' (by decide)
  have hcut : cutCharKeep '/' (host ++ pathp) = (host, pathp) := by
    rcases hp with rfl | ⟨pt, rfl⟩
    · rw [List.append_nil]
      exact cutCharKeep_not_mem '/' host hslash
    · exact cutCharKeep_append '/' host pt hslash
  rw [parseAfterQuery]
  rw [if_neg (fun hc => by simp [listStarts] at hc)]
  rw [if_neg (fun hc => by simp [listStarts] at hc)]
  rw [if_pos ⟨Or.inl hs1, by simp [listStarts]⟩]
  simp only [List.drop_succ_cons, List.drop_zero, hcut,
    parseAuthority_plain host hh1 hh2, unescapePath_id pathp hppct]

theorem parseQuery_nil : parseQuery [] = some [] := rfl

theorem querySegmentPair_revision (rev : Str) (hrev : rev.all revPlainChar = true) :
    querySegmentPair ("revision".toList ++ '=' :: rev) = some ("revision".toList, rev) := by
  have hsemi : (';' : Char) ∉ "revision".toList ++ '=' :: rev := by
    intro hm
    rw [List.mem_append, List.mem_cons] at hm
    rcases hm with hm | hm | hm
    · exact absurd hm (by decide)
    · exact absurd hm (by decide)
    · exact (not_mem_of_all rev revPlainChar hrev ';' (by decide)) hm
  have heq : ('=' : Char) ∉ "revision".toList := by decide
  have hpct : ('%' : Char) ∉ rev := not_mem_of_all rev revPlainChar hrev '%' (by decide)
  have hplus : ('+' : Char) ∉ rev := not_mem_of_all rev revPlainChar hrev '+' (by decide)
  rw [querySegmentPair, if_neg hsemi]
  simp only [cutChar_append '=' "revision".toList rev heq,
    unescapeQuery_id rev hpct hplus,
    show unescapeQuery "revision".toList = some "revision".toList from by decide]

theorem parseQuery_revision (rev : Str) (hrev : rev.all revPlainChar = true) :
    parseQuery ("revision".toList ++ '=' :: rev) = some [("revision".toList, rev)] := by
  have hamp : ('&' : Char) ∉ "revision".toList ++ '=' :: rev := by
    intro hm
    rw [List.mem_append, List.mem_cons] at hm
    rcases hm with hm | hm | hm
    · exact absurd hm (by decide)
    · exact absurd hm (by decide)
    · exact (not_mem_of_all rev revPlainChar hrev '&' (by decide)) hm
  have hne : "revision".toList ++ '=' :: rev ≠ [] := by simp
  have hsegs : ((splitChar '&' ("revision".toList ++ '=' :: rev)).filter
      (fun seg => decide (seg ≠ []))) = ["revision".toList ++ '=' :: rev] := by
    rw [splitChar_not_mem '&' _ hamp]
    simp [hne]
  have hpair := querySegmentPair_revision rev hrev
  rw [parseQuery, hsegs]
  simp at hpair
  simp [hpair]

theorem lookupRevision_single (rev : Str) :
    lookupRevision [("revision".toList, rev)] = some rev := by
  simp [lookupRevision, List.find?]

theorem urlString_remote (scheme host pathp : Str)
    (hs1 : scheme ≠ []) (hh1 : host ≠ []) (hh2 : host.all hostPlainChar = true)
    (hp : pathp = [] ∨ ∃ pt, pathp = '/' :: pt) :
    urlString { scheme := scheme, opq := [], hasUser := false, userinfo := [], host := host,
                path := pathp, rawPath := pathp, forceQuery := false, rawQuery := [],
                fragment := [] } =
      scheme ++ ':' :: '/' :: '/' :: (host ++ pathp) := by
  have hesc := escapeHost_id host (hostPlain_allowed host hh2)
  rcases hp with rfl | ⟨pt, rfl⟩
  · simp [urlString, escapedPath, escapePathMode, hs1, hh1, hesc]
  · simp [urlString, escapedPath, hs1, hh1, hesc, listStarts, cutChar]

theorem urlParse_remote_noq (scheme host pathp : Str)
    (hs1 : scheme ≠ []) (hs2 : scheme.all lowerAlpha = true)
    (hh1 : host ≠ []) (hh2 : host.all hostPlainChar = true)
    (hp : pathp = [] ∨ ∃ pt, pathp = '/' :: pt) (hp2 : pathp.all pathPlainChar = true) :
    urlParse (scheme ++ ':' :: '/' :: '/' :: (host ++ pathp)) =
      some { scheme := scheme, opq := [], hasUser := false, userinfo := [], host := host,
             path := pathp, rawPath := pathp, forceQuery := false, rawQuery := [],
             fragment := [] } := by
  have hq2 : ('?' : Char) ∉ '/' :: '/' :: (host ++ pathp) := by
    intro hm
    simp only [List.mem_cons, List.mem_append] at hm
    rcases hm with hm | hm | hm | hm
    · exact absurd hm (by decide)
    · exact absurd hm (by decide)
    · exact (not_mem_of_all host hostPlainChar hh2 '?' (by decide)) hm
    · exact (not_mem_of_all pathp pathPlainChar hp2 '?' (by decide)) hm
  have hhash : ('#' : Char) ∉ scheme ++ ':' :: '/' :: '/' :: (host ++ pathp) := by
    intro hm
    simp only [List.mem_append, List.mem_cons] at hm
    rcases hm with hm | hm | hm | hm | hm | hm
    · exact (not_mem_of_all scheme lowerAlpha hs2 '#' (by decide)) hm
    · exact absurd hm (by decide)
    · exact absurd hm (by decide)
    · exact absurd hm (by decide)
    · exact (not_mem_of_all host hostPlainChar hh2 '#' (by decide)) hm
    · exact (not_mem_of_all pathp pathPlainChar hp2 '#' (by decide)) hm
  have hctl : containsCTL (scheme ++ ':' :: '/' :: '/' :: (host ++ pathp)) = false := by
    apply containsCTL_eq_false
    intro c hc
    simp only [List.mem_append, List.mem_cons] at hc
    rcases hc with hc | hc | hc | hc | hc | hc
    · exact isCtl_false_of_lowerAlpha c (List.all_eq_true.mp hs2 c hc)
    · subst hc; decide
    · subst hc; decide
    · subst hc; decide
    · exact isCtl_false_of_hostPlain c (List.all_eq_true.mp hh2 c hc)
    · exact isCtl_false_of_pathPlain c (List.all_eq_true.mp hp2 c hc)
  have hstar : scheme ++ ':' :: '/' :: '/' :: (host ++ pathp) ≠ ['*'] := by
    cases scheme with
    | nil => exact absurd rfl hs1
    | cons sc st =>
      intro heq
      rw [List.cons_append] at heq
      injection heq with e1 e2
      simp at e2
  have hgs := getScheme_alpha scheme ('/' :: '/' :: (host ++ pathp))
    (lowerAlpha_isAlpha scheme hs2) hs1
  have hforce : ¬(('/' :: '/' :: (host ++ pathp)).getLast? = some '?' ∧
      ¬('?' : Char) ∈ ('/' :: '/' :: (host ++ pathp)).dropLast) := by
    rintro ⟨hl, -⟩
    exact hq2 (mem_of_getLast?_eq _ '?' hl)
  have hppct : ('%' : Char) ∉ pathp := not_mem_of_all pathp pathPlainChar hp2 '%' (by decide)
  have hinner : parseGoInner (scheme ++ ':' :: '/' :: '/' :: (host ++ pathp)) =
      some { scheme := scheme, opq := [], hasUser := false, userinfo := [], host := host,
             path := pathp, rawPath := pathp, forceQuery := false, rawQuery := [],
             fragment := [] } := by
    rw [parseGoInner, hctl]
    simp only [Bool.false_eq_true, if_false, if_neg hstar, hgs,
      map_toLower_id scheme hs2, if_neg hforce, cutChar_not_mem '?' _ hq2]
    exact parseAfterQuery_remote scheme host pathp [] hs1 hh1 hh2 hp hppct
  rw [urlParse]
  simp only [cutChar_not_mem '#' _ hhash, hinner]
  simp

theorem urlParse_remote_query (scheme host pathp rev : Str)
    (hs1 : scheme ≠ []) (hs2 : scheme.all lowerAlpha = true)
    (hh1 : host ≠ []) (hh2 : host.all hostPlainChar = true)
    (hp : pathp = [] ∨ ∃ pt, pathp = '/' :: pt) (hp2 : pathp.all pathPlainChar = true)
    (hr2 : rev.all revPlainChar = true) :
    urlParse (scheme ++ ':' :: ('/' :: '/' :: (host ++ pathp) ++ '?' ::
        ("revision".toList ++ '=' :: rev))) =
      some { scheme := scheme, opq := [], hasUser := false, userinfo := [], host := host,
             path := pathp, rawPath := pathp, forceQuery := false,
             rawQuery := "revision".toList ++ '=' :: rev, fragment := [] } := by
  have hq2 : ('?' : Char) ∉ '/' :: '/' :: (host ++ pathp) := by
    intro hm
    simp only [List.mem_cons, List.mem_append] at hm
    rcases hm with hm | hm | hm | hm
    · exact absurd hm (by decide)
    · exact absurd hm (by decide)
    · exact (not_mem_of_all host hostPlainChar hh2 '?' (by decide)) hm
    · exact (not_mem_of_all pathp pathPlainChar hp2 '?' (by decide)) hm
  have hqrq : ('?' : Char) ∉ "revision".toList ++ '=' :: rev := by
    intro hm
    simp only [List.mem_append, List.mem_cons] at hm
    rcases hm with hm | hm | hm
    · exact absurd hm (by decide)
    · exact absurd hm (by decide)
    · exact (not_mem_of_all rev revPlainChar hr2 '?' (by decide)) hm
  have hhashA : ('#' : Char) ∉ '/' :: '/' :: (host ++ pathp) := by
    intro hm
    simp only [List.mem_cons, List.mem_append] at hm
    rcases hm with hm | hm | hm | hm
    · exact absurd hm (by decide)
    · exact absurd hm (by decide)
    · exact (not_mem_of_all host hostPlainChar hh2 '#' (by decide)) hm
    · exact (not_mem_of_all pathp pathPlainChar hp2 '#' (by decide)) hm
  have hhashQ : ('#' : Char) ∉ ('?' : Char) :: ("revision".toList ++ '=' :: rev) := by
    intro hm
    simp only [List.mem_cons, List.mem_append] at hm
    rcases hm with hm | hm | hm | hm
    · exact absurd hm (by decide)
    · exact absurd hm (by decide)
    · exact absurd hm (by decide)
    · exact (not_mem_of_all rev revPlainChar hr2 '#' (by decide)) hm
  have hhash : ('#' : Char) ∉ scheme ++ ':' :: ('/' :: '/' :: (host ++ pathp) ++ '?' ::
      ("revision".toList ++ '=' :: rev)) := by
    intro hm
    rcases List.mem_append.mp hm with hm2 | hm2
    · exact (not_mem_of_all scheme lowerAlpha hs2 '#' (by decide)) hm2
    · rcases List.mem_cons.mp hm2 with hm3 | hm3
      · exact absurd hm3 (by decide)
      · rcases List.mem_append.mp hm3 with hm4 | hm4
        · exact hhashA hm4
        · exact hhashQ hm4
  have hctlA : ∀ c ∈ ('/' : Char) :: '/' :: (host ++ pathp), isCtl c = false := by
    intro c hc
    simp only [List.mem_cons, List.mem_append] at hc
    rcases hc with hc | hc | hc | hc
    · subst hc; decide
    · subst hc; decide
    · exact isCtl_false_of_hostPlain c (List.all_eq_true.mp hh2 c hc)
    · exact isCtl_false_of_pathPlain c (List.all_eq_true.mp hp2 c hc)
  have hctlQ : ∀ c ∈ ('?' : Char) :: ("revision".toList ++ '=' :: rev), isCtl c = false := by
    intro c hc
    simp only [List.mem_cons, List.mem_append] at hc
    rcases hc with hc | hc | hc | hc
    · subst hc; decide
    · have h2 : isAlphaNum c = true := by fin_cases hc <;> decide
      exact isCtl_false_of_isAlphaNum c h2
    · subst hc; decide
    · exact isCtl_false_of_revPlain c (List.all_eq_true.mp hr2 c hc)
  have hctl : containsCTL (scheme ++ ':' :: ('/' :: '/' :: (host ++ pathp) ++ '?' ::
      ("revision".toList ++ '=' :: rev))) = false := by
    apply containsCTL_eq_false
    intro c hc
    rcases List.mem_append.mp hc with hc2 | hc2
    · exact isCtl_false_of_lowerAlpha c (List.all_eq_true.mp hs2 c hc2)
    · rcases List.mem_cons.mp hc2 with hc3 | hc3
      · subst hc3; decide
      · rcases List.mem_append.mp hc3 with hc4 | hc4
        · exact hctlA c hc4
        · exact hctlQ c hc4
  have hstar : scheme ++ ':' :: ('/' :: '/' :: (host ++ pathp) ++ '?' ::
      ("revision".toList ++ '=' :: rev)) ≠ ['*'] := by
    cases scheme with
    | nil => exact absurd rfl hs1
    | cons sc st =>
      intro heq
      simp only [List.cons_append] at heq
      injection heq with e1 e2
      simp at e2
  have hgs := getScheme_alpha scheme ('/' :: '/' :: (host ++ pathp) ++ '?' ::
      ("revision".toList ++ '=' :: rev)) (lowerAlpha_isAlpha scheme hs2) hs1
  have hlast : ('/' :: '/' :: (host ++ pathp) ++ '?' ::
      ("revision".toList ++ '=' :: rev)).getLast? =
      ("revision".toList ++ '=' :: rev).getLast? := by
    rw [List.getLast?_append_cons]
    rw [show ("revision".toList ++ '=' :: rev) = 'r' :: ("evision".toList ++ '=' :: rev)
      from rfl]
    rw [List.getLast?_cons_cons]
  have hforce : ¬(('/' :: '/' :: (host ++ pathp) ++ '?' ::
      ("revision".toList ++ '=' :: rev)).getLast? = some '?' ∧
      ¬('?' : Char) ∈ ('/' :: '/' :: (host ++ pathp) ++ '?' ::
        ("revision".toList ++ '=' :: rev)).dropLast) := by
    rintro ⟨hl, -⟩
    rw [hlast] at hl
    exact hqrq (mem_of_getLast?_eq _ '?' hl)
  have hcut : cutChar '?' ('/' :: '/' :: (host ++ pathp) ++ '?' ::
      ("revision".toList ++ '=' :: rev)) =
      ('/' :: '/' :: (host ++ pathp), "revision".toList ++ '=' :: rev, true) :=
    cutChar_append '?' ('/' :: '/' :: (host ++ pathp)) ("revision".toList ++ '=' :: rev) hq2
  have hppct : ('%' : Char) ∉ pathp := not_mem_of_all pathp pathPlainChar hp2 '%' (by decide)
  have hinner : parseGoInner (scheme ++ ':' :: ('/' :: '/' :: (host ++ pathp) ++ '?' ::
      ("revision".toList ++ '=' :: rev))) =
      some { scheme := scheme, opq := [], hasUser := false, userinfo := [], host := host,
             path := pathp, rawPath := pathp, forceQuery := false,
             rawQuery := "revision".toList ++ '=' :: rev, fragment := [] } := by
    rw [parseGoInner, hctl]
    simp only [Bool.false_eq_true, if_false, if_neg hstar, hgs,
      map_toLower_id scheme hs2, if_neg hforce, hcut]
    exact parseAfterQuery_remote scheme host pathp ("revision".toList ++ '=' :: rev)
      hs1 hh1 hh2 hp hppct
  rw [urlParse]
  simp only [cutChar_not_mem '#' _ hhash, hinner]
  simp

theorem ParseRepoRef_remote_noq (scheme host pathp : Str)
    (hs1 : scheme ≠ []) (hs2 : scheme.all lowerAlpha = true)
    (hh1 : host ≠ []) (hh2 : host.all hostPlainChar = true)
    (hp : pathp = [] ∨ ∃ pt, pathp = '/' :: pt) (hp2 : pathp.all pathPlainChar = true) :
    ParseRepoRef (scheme ++ ':' :: '/' :: '/' :: (host ++ pathp)) =
      .ok { name := [], url := scheme ++ ':' :: '/' :: '/' :: (host ++ pathp),
            path := Kickoff.buildLocalCacheDir host pathp "master".toList,
            revision := "master".toList } := by
  have hu := urlParse_remote_noq scheme host pathp hs1 hs2 hh1 hh2 hp hp2
  have hus := urlString_remote scheme host pathp hs1 hh1 hh2 hp
  rw [ParseRepoRef, hu]
  simp [if_neg hh1, parseQuery_nil, lookupRevision, hus]

theorem ParseRepoRef_remote_query (scheme host pathp rev : Str)
    (hs1 : scheme ≠ []) (hs2 : scheme.all lowerAlpha = true)
    (hh1 : host ≠ []) (hh2 : host.all hostPlainChar = true)
    (hp : pathp = [] ∨ ∃ pt, pathp = '/' :: pt) (hp2 : pathp.all pathPlainChar = true)
    (hr1 : rev ≠ []) (hr2 : rev.all revPlainChar = true) :
    ParseRepoRef (scheme ++ ':' :: ('/' :: '/' :: (host ++ pathp) ++ '?' ::
        ("revision".toList ++ '=' :: rev))) =
      .ok { name := [], url := scheme ++ ':' :: '/' :: '/' :: (host ++ pathp),
            path := Kickoff.buildLocalCacheDir host pathp rev, revision := rev } := by
  have hu := urlParse_remote_query scheme host pathp rev hs1 hs2 hh1 hh2 hp hp2 hr2
  have hus := urlString_remote scheme host pathp hs1 hh1 hh2 hp
  have hpq := parseQuery_revision rev hr2
  rw [ParseRepoRef, hu]
  simp at hpq
  have hlr := lookupRevision_single rev
  simp at hlr
  simp [if_neg hh1, hpq, hlr, hr1, hus]

/-- C10 amended: round-tripping `RepoRef.String` through `ParseRepoRef` holds
for refs without percent-escaped, query-significant or home-shorthand
characters: (a) every local ref whose `Path` has only plain characters (no
control characters, `%`, `?`, `#`, `:`), does not begin with `~` and does not
begin with `//` reparses to itself; (b) every remote ref parsed from a
locator `scheme://host[/path]` with an optional `?revision=rev`, over
lowercase-alpha scheme, alphanumeric/dot/dash host, plain path and plain
revision characters, reparses to itself. -/
theorem string_roundtrip_amended :
    (∀ l r, ParseRepoRef l = .ok r → r.url = [] →
      r.path.all plainChar = true → listStarts ['~'] r.path = false →
      listStarts ['/', '/'] r.path = false →
      ParseRepoRef (RepoRef.String r) = .ok r) ∧
    (∀ scheme host pathp rev l r,
      scheme ≠ [] → scheme.all lowerAlpha = true →
      host ≠ [] → host.all hostPlainChar = true →
      (pathp = [] ∨ ∃ pt, pathp = '/' :: pt) → pathp.all pathPlainChar = true →
      rev.all revPlainChar = true →
      (l = scheme ++ ':' :: '/' :: '/' :: (host ++ pathp) ∨
        (rev ≠ [] ∧ l = scheme ++ ':' :: ('/' :: '/' :: (host ++ pathp) ++ '?' ::
          ("revision".toList ++ '=' :: rev)))) →
      ParseRepoRef l = .ok r → ParseRepoRef (RepoRef.String r) = .ok r) := by
  constructor
  · intro l r h hu hall h1 h2
    exact roundtrip_local l r h hu hall h1 h2
  · intro scheme host pathp rev l r hs1 hs2 hh1 hh2 hp hp2 hr2 hl hok
    rcases hl with rfl | ⟨hr1, rfl⟩
    · rw [ParseRepoRef_remote_noq scheme host pathp hs1 hs2 hh1 hh2 hp hp2] at hok
      injection hok with h1
      subst h1
      have hstr : RepoRef.String
          { name := [], url := scheme ++ ':' :: '/' :: '/' :: (host ++ pathp),
            path := Kickoff.buildLocalCacheDir host pathp "master".toList,
            revision := "master".toList } =
          scheme ++ ':' :: ('/' :: '/' :: (host ++ pathp) ++ '?' ::
            ("revision".toList ++ '=' :: "master".toList)) := by
        simp only [RepoRef.String]
        rw [if_neg (by simp), if_neg (by decide)]
        simp
      rw [hstr]
      exact ParseRepoRef_remote_query scheme host pathp "master".toList hs1 hs2 hh1 hh2
        hp hp2 (by decide) (by decide)
    · rw [ParseRepoRef_remote_query scheme host pathp rev hs1 hs2 hh1 hh2 hp hp2 hr1 hr2]
        at hok
      injection hok with h1
      subst h1
      have hstr : RepoRef.String
          { name := [], url := scheme ++ ':' :: '/' :: '/' :: (host ++ pathp),
            path := Kickoff.buildLocalCacheDir host pathp rev,
            revision := rev } =
          scheme ++ ':' :: ('/' :: '/' :: (host ++ pathp) ++ '?' ::
            ("revision".toList ++ '=' :: rev)) := by
        simp only [RepoRef.String]
        rw [if_neg (by simp), if_neg hr1]
        simp
      rw [hstr]
      exact ParseRepoRef_remote_query scheme host pathp rev hs1 hs2 hh1 hh2 hp hp2 hr1 hr2

def wRemoteRef : RepoRef :=
  { name := [], url := "https://github.com/foo/bar".toList,
    path := "/home/user/.cache/kickoff/repositories/github.com/foo/bar@v1.0".toList,
    revision := "v1.0".toList }

/-- Witness for the amended C10 at concrete inputs: the local ref for
`/tmp/x` and the remote ref for `https://github.com/foo/bar?revision=v1.0`
both round-trip. -/
theorem string_roundtrip_amended_witness :
    ParseRepoRef "/tmp/x".toList =
      .ok { name := [], url := [], path := "/tmp/x".toList, revision := [] } ∧
    ParseRepoRef (RepoRef.String
      { name := [], url := [], path := "/tmp/x".toList, revision := [] }) =
      .ok { name := [], url := [], path := "/tmp/x".toList, revision := [] } ∧
    ParseRepoRef ("https".toList ++ ':' :: ('/' :: '/' ::
        ("github.com".toList ++ "/foo/bar".toList) ++ '?' ::
        ("revision".toList ++ '=' :: "v1.0".toList))) = .ok wRemoteRef ∧
    ParseRepoRef (RepoRef.String wRemoteRef) = .ok wRemoteRef :=
  ⟨by decide,
   string_roundtrip_amended.1 "/tmp/x".toList
     { name := [], url := [], path := "/tmp/x".toList, revision := [] }
     (by decide) (by decide) (by decide) (by decide) (by decide),
   by decide,
   string_roundtrip_amended.2 "https".toList "github.com".toList "/foo/bar".toList
     "v1.0".toList
     ("https".toList ++ ':' :: ('/' :: '/' ::
        ("github.com".toList ++ "/foo/bar".toList) ++ '?' ::
        ("revision".toList ++ '=' :: "v1.0".toList)))
     wRemoteRef
     (by decide) (by decide) (by decide) (by decide)
     (Or.inr ⟨"foo/bar".toList, by decide⟩) (by decide) (by decide)
     (Or.inr ⟨by decide, rfl⟩) (by decide)⟩

end Skel
